import Mathlib

/-!
# Script-injection patch generator (`probes/hasDangerousWorkflowScriptInjection/patch`)

A shallow embedding of `impl.go` and theorems about it.

Go strings are modelled as `List Char` (one `Char` per rune).  A Go call that can
stop with a run-time panic (index out of range, `slices.Insert` out of range)
returns an `Option`, `none` standing for the panic.
-/

set_option autoImplicit false
set_option maxRecDepth 100000

namespace Patch

/-! ## The parts of the Go standard library that `impl.go` uses -/

/-- The line feed, U+000A. -/
def LF : Char := Char.ofNat 10

/-- Go `strings.Split(s, sep)` for a separator of one character: the pieces of `s`
between the occurrences of `sep`; never the empty list. -/
def strings.Split : List Char → Char → List (List Char)
  | [], _ => [[]]
  | c :: cs, sep =>
    if c = sep then [] :: strings.Split cs sep
    else
      match strings.Split cs sep with
      | l :: ls => (c :: l) :: ls
      | [] => [[c]]

/-- Go `strings.Join(elems, sep)`. -/
def strings.Join : List (List Char) → List Char → List Char
  | [], _ => []
  | [l], _ => l
  | l :: l2 :: ls, sep => l ++ sep ++ strings.Join (l2 :: ls) sep

/-- Go `strings.TrimLeft(s, cutset)`: drops the leading characters found in `cutset`. -/
def strings.TrimLeft (s cutset : List Char) : List Char :=
  s.dropWhile (fun c => cutset.contains c)

/-- Go `strings.TrimRight(s, cutset)`. -/
def strings.TrimRight (s cutset : List Char) : List Char :=
  (s.reverse.dropWhile (fun c => cutset.contains c)).reverse

/-- Go `strings.Trim(s, cutset)`: drops the leading and the trailing characters found
in `cutset`. -/
def strings.Trim (s cutset : List Char) : List Char :=
  strings.TrimRight (strings.TrimLeft s cutset) cutset

/-- Go `strings.Repeat(s, count)`: panics when `count` is negative. -/
def strings.Repeat (s : List Char) (count : Int) : Option (List Char) :=
  if 0 ≤ count then some (List.replicate count.toNat s).flatten else none

/-- Go `slices.Insert(s, i, v...)`: panics when `i` is out of range. -/
def slices.Insert {α : Type} (s : List α) (i : Int) (v : List α) : Option (List α) :=
  if 0 ≤ i ∧ i ≤ s.length then some (s.take i.toNat ++ v ++ s.drop i.toNat) else none

/-! ### Regular expressions (Go `regexp`, RE2 syntax)

Every expression compiled in `impl.go` is a concatenation of literals, one-character
classes, starred or plussed one-character classes and `^`; none has an alternation
or a group.  Such an expression is a list of atoms. -/

/-- One-character classes. -/
inductive Cls
  | any      -- `.`    any character but a line feed
  | space    -- `\s`   `[\t\n\f\r ]`
  | notHash  -- `[^#]`
  deriving DecidableEq, Repr

/-- Membership of a character in a class. -/
def Cls.test : Cls → Char → Bool
  | .any, c => c != LF
  | .space, c => c == Char.ofNat 9 || c == LF || c == Char.ofNat 12 || c == Char.ofNat 13
      || c == Char.ofNat 32
  | .notHash, c => c != Char.ofNat 35

/-- Atoms of a regular expression. -/
inductive Atom
  | chr (c : Char)       -- a literal character
  | one (k : Cls)        -- one character of a class
  | star (k : Cls)       -- `k*`, greedy
  | lazyStar (k : Cls)   -- `k*?`, non-greedy
  | plus (k : Cls)       -- `k+`, greedy
  | bol                  -- `^`, the beginning of the text
  | eol                  -- `$`, the end of the text
  deriving DecidableEq, Repr

/-- A compiled regular expression (`*regexp.Regexp`). -/
abbrev Regexp := List Atom

/-- The expression matching the text `s` literally. -/
def lit (s : String) : Regexp := s.toList.map Atom.chr

/-- The expression matching the characters `s` literally. -/
def litChars (s : List Char) : Regexp := s.map Atom.chr

/-- Greedy iteration: takes as many characters satisfying `p` as it can and gives
them back one at a time until the rest of the expression, `k`, matches. -/
def starGreedy (p : Char → Bool) (k : List Char → Option Nat) : List Char → Option Nat
  | [] => k []
  | x :: xs =>
    if p x then
      match starGreedy p k xs with
      | some m => some (m + 1)
      | none => k (x :: xs)
    else k (x :: xs)

/-- Non-greedy iteration: tries the rest of the expression, `k`, first and takes one
more character satisfying `p` only when that fails. -/
def starLazy (p : Char → Bool) (k : List Char → Option Nat) : List Char → Option Nat
  | [] => k []
  | x :: xs =>
    match k (x :: xs) with
    | some m => some m
    | none => if p x then (starLazy p k xs).map (· + 1) else none

/-- The match of `re` that begins at the head of `s`, as a backtracking search finds it
(Go: leftmost-first); the result is the number of characters matched.  `n` is the
length of the whole text, so that `^` holds exactly when `s` is the whole text. -/
def matchHere (n : Nat) : Regexp → List Char → Option Nat
  | [], _ => some 0
  | .chr c :: re, s =>
    match s with
    | x :: xs => if x = c then (matchHere n re xs).map (· + 1) else none
    | [] => none
  | .one k :: re, s =>
    match s with
    | x :: xs => if k.test x then (matchHere n re xs).map (· + 1) else none
    | [] => none
  | .star k :: re, s => starGreedy k.test (matchHere n re) s
  | .lazyStar k :: re, s => starLazy k.test (matchHere n re) s
  | .plus k :: re, s =>
    match s with
    | x :: xs => if k.test x then (starGreedy k.test (matchHere n re) xs).map (· + 1) else none
    | [] => none
  | .bol :: re, s => if s.length = n then matchHere n re s else none
  | .eol :: re, s => if s.isEmpty then matchHere n re s else none

/-- The leftmost match of `re` in `s`: the number of characters before it and its
length. -/
def search (re : Regexp) (n : Nat) : List Char → Option (Nat × Nat)
  | [] => (matchHere n re []).map (fun m => (0, m))
  | c :: cs =>
    match matchHere n re (c :: cs) with
    | some m => some (0, m)
    | none => (search re n cs).map (fun r => (r.1 + 1, r.2))

/-- Go `re.MatchString(s)`: whether `s` contains a match of `re`. -/
def Regexp.MatchString (re : Regexp) (s : List Char) : Bool :=
  (search re s.length s).isSome

/-- The loop of Go `re.ReplaceAllString`, one character of the text at a time.
`skip` is the number of characters still covered by the last match; `am` tells that
the last match ended right here (an empty match is then not replaced again). -/
def replaceAll (re : Regexp) (repl : List Char) (n : Nat) : List Char → Nat → Bool → List Char
  | [], 0, am =>
    match matchHere n re [] with
    | some _ => if am then [] else repl
    | none => []
  | [], _ + 1, _ => []
  | _ :: cs, skip + 1, _ => replaceAll re repl n cs skip true
  | c :: cs, 0, am =>
    match matchHere n re (c :: cs) with
    | some 0 => (if am then [] else repl) ++ c :: replaceAll re repl n cs 0 false
    | some (m + 1) => repl ++ replaceAll re repl n cs m true
    | none => c :: replaceAll re repl n cs 0 false

/-- Go `re.ReplaceAllString(src, repl)` for a replacement text without `$`: every
match of `re` in `src`, leftmost first and not overlapping, is replaced by `repl`. -/
def Regexp.ReplaceAllString (re : Regexp) (src repl : List Char) : List Char :=
  replaceAll re repl src.length src 0 false

/-! ## `impl.go` -/

/-- The fields of `checker.File` that the package reads; `Offset` is a Go `uint`. -/
structure File where
  Path : List Char
  Snippet : List Char
  Offset : Nat

/-- The number of values of a Go `uint` (64 bits). -/
def uintSize : Nat := 2 ^ 64

def assumedIndent : Int := 2

structure unsafePattern where
  envvarName : List Char
  idRegex : Regexp
  replaceRegex : Regexp
  deriving DecidableEq

/-- The expression `.*?`. -/
def lazyAny : Atom := .lazyStar .any

/-- Source: `newUnsafePattern(e, p)`; `replaceRegex` is `{{\s*.*?` + p + `.*?\s*}}`. -/
def newUnsafePattern (e : String) (p : Regexp) : unsafePattern :=
  { envvarName := e.toList
    idRegex := p
    replaceRegex :=
      lit "\x7b\x7b" ++ [.star .space, lazyAny] ++ p ++ [lazyAny, .star .space] ++ lit "\x7d\x7d" }

/-- The catalog; in the source every `.` of a literal is written `\.`. -/
def unsafePatterns : List unsafePattern := [
  newUnsafePattern "AUTHOR_EMAIL" (lit "github.event.commits" ++ [lazyAny] ++ lit ".author.email"),
  newUnsafePattern "AUTHOR_EMAIL" (lit "github.event.head_commit.author.email"),
  newUnsafePattern "AUTHOR_NAME" (lit "github.event.commits" ++ [lazyAny] ++ lit ".author.name"),
  newUnsafePattern "AUTHOR_NAME" (lit "github.event.head_commit.author.name"),
  newUnsafePattern "COMMENT_BODY" (lit "github.event.comment.body"),
  newUnsafePattern "COMMIT_MESSAGE" (lit "github.event.commits" ++ [lazyAny] ++ lit ".message"),
  newUnsafePattern "COMMIT_MESSAGE" (lit "github.event.head_commit.message"),
  newUnsafePattern "ISSUE_BODY" (lit "github.event.issue.body"),
  newUnsafePattern "ISSUE_TITLE" (lit "github.event.issue.title"),
  newUnsafePattern "PAGE_NAME" (lit "github.event.pages" ++ [lazyAny] ++ lit ".page_name"),
  newUnsafePattern "PR_BODY" (lit "github.event.pull_request.body"),
  newUnsafePattern "PR_DEFAULT_BRANCH" (lit "github.event.pull_request.head.repo.default_branch"),
  newUnsafePattern "PR_HEAD_LABEL" (lit "github.event.pull_request.head.label"),
  newUnsafePattern "PR_HEAD_REF" (lit "github.event.pull_request.head.ref"),
  newUnsafePattern "PR_TITLE" (lit "github.event.pull_request.title"),
  newUnsafePattern "REVIEW_BODY" (lit "github.event.review.body"),
  newUnsafePattern "REVIEW_COMMENT_BODY" (lit "github.event.review_comment.body"),
  newUnsafePattern "HEAD_REF" (lit "github.head_ref")]

/-- Source: `getUnsafePattern`; `none` stands for `(unsafePattern{}, false)`. -/
def getUnsafePattern (unsafeVar : List Char) : Option unsafePattern :=
  unsafePatterns.find? (fun p => p.idRegex.MatchString unsafeVar)

/-- Source: `getIndent`.  The characters dropped are spaces and dashes, one byte each,
so the difference of the byte lengths is the difference of the character counts. -/
def getIndent (line : List Char) : Int :=
  (line.length : Int) - ((strings.TrimLeft line " -".toList).length : Int)

/-- Source: `isBlankOrComment`, with the expressions `^\s*$` and `^\s*#`. -/
def isBlankOrComment (line : List Char) : Bool :=
  let blank : Regexp := [.bol, .star .space, .eol]
  let comment : Regexp := [.bol, .star .space] ++ lit "#"
  blank.MatchString line || comment.MatchString line

/-- Source: `isParentLevelIndent`. -/
def isParentLevelIndent (line : List Char) (parentIndent : Int) : Bool :=
  if isBlankOrComment line then false
  else decide (getIndent line ≥ parentIndent)

/-- Source: `findGlobalIndentation`, with the expression `^\s*on:`. -/
def findGlobalIndentation (lines : List (List Char)) : Int × Bool :=
  let r : Regexp := [.bol, .star .space] ++ lit "on:"
  match lines.find? (fun line => r.MatchString line) with
  | some line => (getIndent line, true)
  | none => (-1, false)

/-- Source: `findExistingEnv`.  The first loop stops at the first line matching
`labelRegex` (or at `num_lines`), the second at the first line from `i` on that does
not match `envvarRegex` (or at `num_lines`). -/
def findExistingEnv (lines : List (List Char)) (globalIndent : Int) : Option (Int × Int × Bool) :=
  let num_lines : Int := lines.length
  match strings.Repeat " ".toList globalIndent with
  | none => none
  | some indent =>
    let labelRegex : Regexp := litChars indent ++ lit "env:"
    let i := lines.findIdx (fun line => labelRegex.MatchString line)
    if (i : Int) ≥ num_lines - 1 then some (-1, -1, false)
    else
      let i := i + 1
      match lines[i]? with
      | none => none
      | some line =>
        let envvarIndent := getIndent line
        let envvarRegex : Regexp := litChars indent ++ [.plus .space, .one .notHash]
        let i := i + (lines.drop i).findIdx (fun line => !envvarRegex.MatchString line)
        some (i, envvarIndent, true)

/-- Source: `findNewEnvPos`. -/
def findNewEnvPos (lines : List (List Char)) (globalIndent : Int) : Option (Int × Bool) :=
  match strings.Repeat " ".toList globalIndent with
  | none => none
  | some indent =>
    let r : Regexp := litChars indent ++ lit "jobs:"
    let i := lines.findIdx (fun line => r.MatchString line)
    if i < lines.length then some (i, true) else some (-1, false)

/-- Source: `addNewGlobalEnv`; the empty list stands for `nil`. -/
def addNewGlobalEnv (lines : List (List Char)) (globalIndentation : Int) :
    Option (List (List Char) × Int × Bool) :=
  match findNewEnvPos lines globalIndentation with
  | none => none
  | some (envPos, false) => some ([], envPos, false)
  | some (envPos, true) =>
    match strings.Repeat " ".toList globalIndentation with
    | none => none
    | some indent =>
      let label := indent ++ "env:".toList
      match slices.Insert lines envPos [label, []] with
      | none => none
      | some lines => some (lines, envPos, true)

/-- The loop of `replaceUnsafeVarWithEnvvar` on the lines from `runIndex` on. -/
def replaceLoop (pattern : unsafePattern) (runIndent : Int) : List (List Char) → List (List Char)
  | [] => []
  | line :: rest =>
    if isParentLevelIndent line runIndent then
      pattern.replaceRegex.ReplaceAllString line pattern.envvarName
        :: replaceLoop pattern runIndent rest
    else line :: rest

/-- Source: `replaceUnsafeVarWithEnvvar`; `lines[runIndex]` panics when `runIndex` is
not below `len(lines)`. -/
def replaceUnsafeVarWithEnvvar (lines : List (List Char)) (pattern : unsafePattern)
    (runIndex : Nat) : Option (List (List Char)) :=
  match lines[runIndex]? with
  | none => none
  | some line =>
    let runIndent := getIndent line
    some (lines.take runIndex ++ replaceLoop pattern runIndent (lines.drop runIndex))

/-- Go `fmt.Sprintf("%s: ${{ %s }}", envvarName, unsafeVar)`. -/
def envvarDefinition (envvarName unsafeVar : List Char) : List Char :=
  envvarName ++ ": $\x7b\x7b ".toList ++ unsafeVar ++ " \x7d\x7d".toList

/-- Source: `addEnvvarsToGlobalEnv`; the empty list stands for `nil`. -/
def addEnvvarsToGlobalEnv (lines : List (List Char)) (pattern : unsafePattern)
    (unsafeVar : List Char) : Option (List (List Char) × Bool) :=
  let insertDefinition := fun (lines : List (List Char)) (envPos envvarIndent : Int) =>
    match strings.Repeat " ".toList envvarIndent with
    | none => none
    | some indent =>
      match slices.Insert lines envPos [indent ++ envvarDefinition pattern.envvarName unsafeVar] with
      | none => none
      | some lines => some (lines, true)
  match findGlobalIndentation lines with
  | (_, false) => some ([], false)
  | (globalIndentation, true) =>
    match findExistingEnv lines globalIndentation with
    | none => none
    | some (envPos, envvarIndent, true) => insertDefinition lines envPos envvarIndent
    | some (_, _, false) =>
      match addNewGlobalEnv lines globalIndentation with
      | none => none
      | some (_, _, false) => some ([], false)
      | some (lines, envPos, true) =>
        insertDefinition lines (envPos + 1) (globalIndentation + assumedIndent)

/-- Source: `patchWorkflow`; `f.Offset - 1` is computed in `uint`. -/
def patchWorkflow (f : File) (content : List Char) : Option (List Char × Bool) :=
  let unsafeVar := strings.Trim f.Snippet " ".toList
  let runCmdIndex := (f.Offset + uintSize - 1) % uintSize
  let lines := strings.Split content LF
  match getUnsafePattern unsafeVar with
  | none => some ([], false)
  | some unsafePattern =>
    match replaceUnsafeVarWithEnvvar lines unsafePattern runCmdIndex with
    | none => none
    | some lines =>
      match addEnvvarsToGlobalEnv lines unsafePattern unsafeVar with
      | none => none
      | some (_, false) => some ([], false)
      | some (lines, true) => some (strings.Join lines [LF], true)

/-- Source: `GeneratePatch`.  `getDiff` renders the diff with the go-git library, which
is not part of the package: it is a parameter. -/
def GeneratePatch (getDiff : List Char → List Char → List Char → List Char) (f : File)
    (content : List Char) : Option (List Char) :=
  match patchWorkflow f content with
  | none => none
  | some (_, false) => some []
  | some (patchedWorkflow, true) => some (getDiff f.Path content patchedWorkflow)

/-! ## Auxiliary notions for the proofs -/

/-- Expressions without `^` and `$`. -/
def anchorFree (re : Regexp) : Prop := Atom.bol ∉ re ∧ Atom.eol ∉ re

/-- The shape of a text after replacements: `Rep b name s o` says that `o` is `s` with
some disjoint pieces, each beginning with the character `b`, replaced by `name`. -/
inductive Rep (b : Char) (name : List Char) : List Char → List Char → Prop
  | nil : Rep b name [] []
  | keep (c : Char) {s o : List Char} : Rep b name s o → Rep b name (c :: s) (c :: o)
  | subst (mid : List Char) {s o : List Char} :
      Rep b name s o → Rep b name (b :: mid ++ s) (name ++ o)

/-- The characters of the catalog's variable names: upper-case letters and `_`. -/
def isNameChar (c : Char) : Bool := c.isUpper || c == Char.ofNat 95

/-- The opening brace, U+007B. -/
def LBRACE : Char := Char.ofNat 123

/-- The closing brace, U+007D. -/
def RBRACE : Char := Char.ofNat 125

/-- The literal characters at the head of an expression. -/
def headChars : Regexp → List Char
  | Atom.chr c :: re => c :: headChars re
  | _ => []

/-- The literal characters behind the first atom that is not a literal. -/
def tailChars : Regexp → List Char
  | Atom.chr _ :: re => tailChars re
  | _ :: re => headChars re
  | [] => []

/-- A line with wrapped occurrences: every item of `occs` is the text before an occurrence
and the text between its braces; `tail` is the text behind the last occurrence. -/
def wrapOccurrences : List (List Char × List Char) → List Char → List Char
  | [], tail => tail
  | (pre, m) :: occs, tail =>
    pre ++ "$\x7b\x7b".toList ++ m ++ "\x7d\x7d".toList ++ wrapOccurrences occs tail

/-- The same line with `$name` in the place of every occurrence. -/
def substOccurrences (name : List Char) : List (List Char × List Char) → List Char → List Char
  | [], tail => tail
  | (pre, _) :: occs, tail => pre ++ "$".toList ++ name ++ substOccurrences name occs tail

/-! ## The worked example of the specification -/

/-- The six-line workflow of the example. -/
def exampleWorkflow : List (List Char) := [
  "on:".toList,
  "  issue_comment:".toList,
  "jobs:".toList,
  "  build:".toList,
  "    steps:".toList,
  "      - run: echo \"$\x7b\x7b github.event.comment.body \x7d\x7d\"".toList]

/-- The finding of the example. -/
def exampleFinding : File :=
  { Path := "workflow.yaml".toList, Snippet := " github.event.comment.body ".toList, Offset := 6 }

/-- The patched workflow of the example. -/
def examplePatched : List (List Char) := [
  "on:".toList,
  "  issue_comment:".toList,
  "env:".toList,
  "  COMMENT_BODY: $\x7b\x7b github.event.comment.body \x7d\x7d".toList,
  [],
  "jobs:".toList,
  "  build:".toList,
  "    steps:".toList,
  "      - run: echo \"$COMMENT_BODY\"".toList]

/-- A fragment without the `on:` key. -/
def fragmentWithoutAnchor : List (List Char) := [
  "jobs:".toList,
  "  build:".toList,
  "    steps:".toList,
  "      - run: echo \"$\x7b\x7b github.event.comment.body \x7d\x7d\"".toList]

/-- A workflow with the `on:` key and without the `jobs:` key. -/
def workflowWithoutJobs : List (List Char) := [
  "on:".toList,
  "  issue_comment:".toList,
  "  build:".toList,
  "    steps:".toList,
  "      - run: echo \"$\x7b\x7b github.event.comment.body \x7d\x7d\"".toList]

/-- A step: the run line, a line with the expression, a comment line and one more line
with the expression. -/
def workflowWithComment : List (List Char) := [
  "      - run: |".toList,
  "          echo \"$\x7b\x7b github.event.comment.body \x7d\x7d\"".toList,
  "          # a comment".toList,
  "          echo \"$\x7b\x7b github.event.comment.body \x7d\x7d\"".toList]

/-- A workflow whose only `env:` key is at the job level. -/
def workflowWithJobEnv : List (List Char) := [
  "on:".toList,
  "  pull_request:".toList,
  "jobs:".toList,
  "  build:".toList,
  "    env:".toList,
  "      FOO: bar".toList,
  "    steps:".toList,
  "      - run: echo \"$\x7b\x7b github.head_ref \x7d\x7d\"".toList]

/-- A workflow with a global `env:` block indented by four spaces that already declares
`COMMENT_BODY`. -/
def workflowWithEnv : List (List Char) := [
  "on:".toList,
  "    issue_comment:".toList,
  "env:".toList,
  "    COMMENT_BODY: $\x7b\x7b github.event.comment.body \x7d\x7d".toList,
  [],
  "jobs:".toList,
  "    build:".toList,
  "        steps:".toList,
  "            - run: echo \"$COMMENT_BODY\"".toList]

/-- Two steps of a job, both with the expression. -/
def workflowWithTwoSteps : List (List Char) := [
  "    steps:".toList,
  "      - run: echo \"$\x7b\x7b github.event.comment.body \x7d\x7d\"".toList,
  "      - run: echo \"again $\x7b\x7b github.event.comment.body \x7d\x7d\"".toList]

/-- A run line with the expression of `github.head_ref` twice. -/
def workflowWithTwoOccurrences : List (List Char) := [
  "      - run: echo $\x7b\x7b github.head_ref \x7d\x7d and $\x7b\x7b github.head_ref \x7d\x7d".toList]

/-! ## Lemmas -/

/-! ### Regular expressions -/

theorem litChars_append (a b : List Char) : litChars (a ++ b) = litChars a ++ litChars b := by
  simp [litChars]

theorem lit_eq_litChars (s : String) : lit s = litChars s.toList := rfl

/-- A literal matches at the head of `s` exactly when `s` begins with it. -/
theorem matchHere_litChars_isSome (n : Nat) (re : Regexp) (w s : List Char) :
    (matchHere n (litChars w ++ re) s).isSome
      ↔ ∃ t, s = w ++ t ∧ (matchHere n re t).isSome := by
  induction w generalizing s with
  | nil => simp [litChars]
  | cons c w ih =>
    cases s with
    | nil => simp [litChars, matchHere]
    | cons x xs =>
      have ih' := ih xs
      simp only [litChars, List.map_cons, List.cons_append, matchHere] at ih' ⊢
      by_cases hx : x = c
      · subst hx
        simp [ih']
      · simp [hx]

/-- A leftmost match exists exactly when the expression matches at some suffix. -/
theorem search_isSome (re : Regexp) (n : Nat) (s : List Char) :
    (search re n s).isSome ↔ ∃ a t, s = a ++ t ∧ (matchHere n re t).isSome := by
  induction s with
  | nil =>
    simp only [search, Option.isSome_map']
    constructor
    · intro h
      exact ⟨[], [], rfl, h⟩
    · rintro ⟨a, t, hs, ht⟩
      obtain ⟨-, rfl⟩ := List.append_eq_nil.1 hs.symm
      exact ht
  | cons c cs ih =>
    simp only [search]
    cases h : matchHere n re (c :: cs) with
    | some m =>
      simp only [Option.isSome_some, true_iff]
      exact ⟨[], c :: cs, rfl, by simp [h]⟩
    | none =>
      simp only [Option.isSome_map', ih]
      constructor
      · rintro ⟨a, t, rfl, ht⟩
        exact ⟨c :: a, t, rfl, ht⟩
      · rintro ⟨a, t, hs, ht⟩
        cases a with
        | nil =>
          simp only [List.nil_append] at hs
          subst hs
          simp [h] at ht
        | cons x a =>
          simp only [List.cons_append, List.cons.injEq] at hs
          exact ⟨a, t, hs.2, ht⟩

/-- A literal expression matches the lines that contain its text. -/
theorem MatchString_litChars (w s : List Char) :
    (litChars w).MatchString s = true ↔ w <:+: s := by
  unfold Regexp.MatchString
  rw [search_isSome]
  constructor
  · rintro ⟨a, t, rfl, ht⟩
    have := (matchHere_litChars_isSome (a ++ t).length [] w t).1 (by simpa using ht)
    obtain ⟨t', rfl, -⟩ := this
    exact ⟨a, t', by simp⟩
  · rintro ⟨a, t', rfl⟩
    refine ⟨a, w ++ t', by simp, ?_⟩
    have := (matchHere_litChars_isSome (a ++ w ++ t').length [] w (w ++ t')).2 ⟨t', rfl, by simp [matchHere]⟩
    simpa using this

/-- A greedy iteration followed by `k` matches exactly when `k` matches after some
run of characters satisfying `p`. -/
theorem starGreedy_isSome (p : Char → Bool) (k : List Char → Option Nat) (s : List Char) :
    (starGreedy p k s).isSome ↔ ∃ u v, s = u ++ v ∧ (∀ c ∈ u, p c = true) ∧ (k v).isSome := by
  induction s with
  | nil =>
    simp only [starGreedy]
    constructor
    · intro h
      exact ⟨[], [], rfl, by simp, h⟩
    · rintro ⟨u, v, hs, -, hk⟩
      obtain ⟨-, rfl⟩ := List.append_eq_nil.1 hs.symm
      exact hk
  | cons x xs ih =>
    simp only [starGreedy]
    by_cases hp : p x = true
    · simp only [hp, if_true]
      cases h : starGreedy p k xs with
      | some m =>
        simp only [Option.isSome_some, true_iff]
        obtain ⟨u, v, rfl, hu, hk⟩ := ih.1 (by simp [h])
        exact ⟨x :: u, v, rfl, by simpa [hp] using hu, hk⟩
      | none =>
        simp only
        constructor
        · intro hk
          exact ⟨[], x :: xs, rfl, by simp, hk⟩
        · rintro ⟨u, v, hs, hu, hk⟩
          cases u with
          | nil =>
            simp only [List.nil_append] at hs
            subst hs
            exact hk
          | cons y u =>
            simp only [List.cons_append, List.cons.injEq] at hs
            have : (starGreedy p k xs).isSome :=
              ih.2 ⟨u, v, hs.2, fun c hc => hu c (List.mem_cons_of_mem _ hc), hk⟩
            simp [h] at this
    · simp only [hp, if_false]
      constructor
      · intro hk
        exact ⟨[], x :: xs, rfl, by simp, hk⟩
      · rintro ⟨u, v, hs, hu, hk⟩
        cases u with
        | nil =>
          simp only [List.nil_append] at hs
          subst hs
          exact hk
        | cons y u =>
          simp only [List.cons_append, List.cons.injEq] at hs
          exact absurd (hs.1 ▸ hu y (List.mem_cons_self _ _)) hp

/-- A non-greedy iteration followed by `k` matches exactly when `k` matches after some
run of characters satisfying `p`. -/
theorem starLazy_isSome (p : Char → Bool) (k : List Char → Option Nat) (s : List Char) :
    (starLazy p k s).isSome ↔ ∃ u v, s = u ++ v ∧ (∀ c ∈ u, p c = true) ∧ (k v).isSome := by
  induction s with
  | nil =>
    simp only [starLazy]
    constructor
    · intro h
      exact ⟨[], [], rfl, by simp, h⟩
    · rintro ⟨u, v, hs, -, hk⟩
      obtain ⟨-, rfl⟩ := List.append_eq_nil.1 hs.symm
      exact hk
  | cons x xs ih =>
    simp only [starLazy]
    cases h : k (x :: xs) with
    | some m =>
      simp only [Option.isSome_some, true_iff]
      exact ⟨[], x :: xs, rfl, by simp, by simp [h]⟩
    | none =>
      simp only
      by_cases hp : p x = true
      · simp only [hp, if_true, Option.isSome_map', ih]
        constructor
        · rintro ⟨u, v, rfl, hu, hk⟩
          exact ⟨x :: u, v, rfl, by simpa [hp] using hu, hk⟩
        · rintro ⟨u, v, hs, hu, hk⟩
          cases u with
          | nil =>
            simp only [List.nil_append] at hs
            subst hs
            simp [h] at hk
          | cons y u =>
            simp only [List.cons_append, List.cons.injEq] at hs
            exact ⟨u, v, hs.2, fun c hc => hu c (List.mem_cons_of_mem _ hc), hk⟩
      · simp only [hp, if_false]
        constructor
        · intro hk
          simp at hk
        · rintro ⟨u, v, hs, hu, hk⟩
          cases u with
          | nil =>
            simp only [List.nil_append] at hs
            subst hs
            simp [h] at hk
          | cons y u =>
            simp only [List.cons_append, List.cons.injEq] at hs
            exact absurd (hs.1 ▸ hu y (List.mem_cons_self _ _)) hp

/-- An expression beginning with `^` matches only at the beginning of the text. -/
theorem search_bol_eq_none (re : Regexp) (n : Nat) (t : List Char) (h : t.length < n) :
    search (Atom.bol :: re) n t = none := by
  induction t with
  | nil =>
    have : ¬ (0 = n) := by simp at h; omega
    simp [search, matchHere, this]
  | cons c cs ih =>
    have h1 : ¬ (cs.length + 1 = n) := by simp at h; omega
    have h2 : cs.length < n := by simp at h; omega
    simp [search, matchHere, h1, ih h2]

theorem MatchString_bol (re : Regexp) (s : List Char) :
    Regexp.MatchString (Atom.bol :: re) s = (matchHere s.length re s).isSome := by
  unfold Regexp.MatchString
  cases s with
  | nil => simp [search, matchHere]
  | cons c cs =>
    simp only [search, matchHere, List.length_cons, if_true]
    cases h : matchHere (cs.length + 1) re (c :: cs) with
    | some m => simp
    | none => simp [search_bol_eq_none re (cs.length + 1) cs (by omega)]

theorem anchorFree_cons {a : Atom} {re : Regexp} (h : anchorFree (a :: re)) :
    a ≠ Atom.bol ∧ a ≠ Atom.eol ∧ anchorFree re := by
  unfold anchorFree at h ⊢
  simp only [List.mem_cons, not_or] at h
  exact ⟨fun e => h.1.1 e.symm, fun e => h.2.1 e.symm, h.1.2, h.2.2⟩

/-- A match of an expression without anchors stays a match when text is added behind
it, whatever the length of the whole text. -/
theorem matchHere_append (n n2 : Nat) (re : Regexp) (hre : anchorFree re) (s t : List Char)
    (h : (matchHere n re s).isSome) : (matchHere n2 re (s ++ t)).isSome := by
  induction re generalizing s with
  | nil => simp [matchHere]
  | cons a re ih =>
    obtain ⟨hb, he, hre2⟩ := anchorFree_cons hre
    cases a with
    | chr c =>
      cases s with
      | nil => simp [matchHere] at h
      | cons x xs =>
        simp only [matchHere, List.cons_append] at h ⊢
        by_cases hx : x = c
        · simp only [hx, if_true, Option.isSome_map'] at h ⊢
          exact ih hre2 xs h
        · simp [hx] at h
    | one k =>
      cases s with
      | nil => simp [matchHere] at h
      | cons x xs =>
        simp only [matchHere, List.cons_append] at h ⊢
        by_cases hx : k.test x = true
        · simp only [hx, if_true, Option.isSome_map'] at h ⊢
          exact ih hre2 xs h
        · simp [hx] at h
    | star k =>
      simp only [matchHere] at h ⊢
      obtain ⟨u, v, rfl, hu, hk⟩ := (starGreedy_isSome _ _ _).1 h
      exact (starGreedy_isSome _ _ _).2 ⟨u, v ++ t, by simp, hu, ih hre2 v hk⟩
    | lazyStar k =>
      simp only [matchHere] at h ⊢
      obtain ⟨u, v, rfl, hu, hk⟩ := (starLazy_isSome _ _ _).1 h
      exact (starLazy_isSome _ _ _).2 ⟨u, v ++ t, by simp, hu, ih hre2 v hk⟩
    | plus k =>
      cases s with
      | nil => simp [matchHere] at h
      | cons x xs =>
        simp only [matchHere, List.cons_append] at h ⊢
        by_cases hx : k.test x = true
        · simp only [hx, if_true, Option.isSome_map'] at h ⊢
          obtain ⟨u, v, rfl, hu, hk⟩ := (starGreedy_isSome _ _ _).1 h
          exact (starGreedy_isSome _ _ _).2 ⟨u, v ++ t, by simp, hu, ih hre2 v hk⟩
        · simp [hx] at h
    | bol => exact absurd rfl hb
    | eol => exact absurd rfl he

/-- An expression without anchors that matches a part of a text matches the text. -/
theorem MatchString_of_infix (re : Regexp) (hre : anchorFree re) (t s : List Char)
    (hts : t <:+: s) (h : re.MatchString t = true) : re.MatchString s = true := by
  unfold Regexp.MatchString at h ⊢
  obtain ⟨a, t1, rfl, ht1⟩ := (search_isSome _ _ _).1 h
  obtain ⟨l, r, rfl⟩ := hts
  exact (search_isSome _ _ _).2
    ⟨l ++ a, t1 ++ r, by simp, matchHere_append _ _ re hre t1 r ht1⟩

theorem TrimLeft_back (s cutset : List Char) : strings.TrimLeft s cutset <:+ s :=
  List.dropWhile_suffix _

theorem TrimRight_front (s cutset : List Char) : strings.TrimRight s cutset <+: s := by
  unfold strings.TrimRight
  have := List.dropWhile_suffix (fun c => cutset.contains c) (l := s.reverse)
  simpa using List.reverse_prefix.2 this

theorem Trim_part (s cutset : List Char) : strings.Trim s cutset <:+: s :=
  ((TrimRight_front _ cutset).isInfix).trans (TrimLeft_back s cutset).isInfix

theorem matchHere_star (n : Nat) (k : Cls) (re : Regexp) (s : List Char) :
    matchHere n (Atom.star k :: re) s = starGreedy k.test (matchHere n re) s := by
  simp only [matchHere]

/-- The anchor expression `^\s*on:` matches the lines that begin with whitespace
followed by `on:`. -/
theorem MatchString_anchor (line : List Char) :
    Regexp.MatchString ([Atom.bol, Atom.star Cls.space] ++ lit "on:") line = true
      ↔ ∃ ws rest, line = ws ++ ("on:".toList ++ rest) ∧ ∀ c ∈ ws, Cls.space.test c = true := by
  rw [show ([Atom.bol, Atom.star Cls.space] ++ lit "on:")
      = Atom.bol :: Atom.star Cls.space :: (litChars "on:".toList ++ []) by simp [lit, litChars],
    MatchString_bol, matchHere_star, starGreedy_isSome]
  constructor
  · rintro ⟨u, v, rfl, hu, hk⟩
    obtain ⟨t, rfl, -⟩ := (matchHere_litChars_isSome _ _ _ _).1 hk
    exact ⟨u, t, rfl, hu⟩
  · rintro ⟨ws, rest, rfl, hws⟩
    exact ⟨ws, _, rfl, hws, (matchHere_litChars_isSome _ _ _ _).2 ⟨rest, rfl, by simp [matchHere]⟩⟩

theorem Rep.refl (b : Char) (name : List Char) (s : List Char) : Rep b name s s := by
  induction s with
  | nil => exact Rep.nil
  | cons c s ih => exact Rep.keep c ih

/-- The result of `replaceAll` for an expression that begins with the literal `b`. -/
theorem replaceAll_rep (b : Char) (re : Regexp) (name : List Char) (n : Nat) (s : List Char)
    (skip : Nat) (am : Bool) :
    Rep b name (s.drop skip) (replaceAll (Atom.chr b :: re) name n s skip am) := by
  induction s generalizing skip am with
  | nil =>
    cases skip with
    | zero => simp [replaceAll, matchHere, Rep.nil]
    | succ k => simp [replaceAll, Rep.nil]
  | cons c cs ih =>
    cases skip with
    | succ k =>
      simp only [replaceAll, List.drop_succ_cons]
      exact ih k true
    | zero =>
      simp only [replaceAll, List.drop_zero]
      cases h : matchHere n (Atom.chr b :: re) (c :: cs) with
      | none => exact Rep.keep c (by simpa using ih 0 false)
      | some m =>
        have hc : c = b := by
          simp only [matchHere] at h
          by_contra hne
          simp [hne] at h
        cases m with
        | zero =>
          simp only [matchHere, hc, if_true] at h
          cases h2 : matchHere n re cs <;> simp [h2] at h
        | succ m =>
          simp only
          have := @Rep.subst b name (cs.take m) _ _ (ih m true)
          rw [hc]
          simpa using this

theorem Rep.prefix_fwd {b : Char} {name s o : List Char} (h : Rep b name s o) :
    ∀ w : List Char, w <+: s → b ∉ w → w <+: o := by
  induction h with
  | nil => intro w hw _; exact hw
  | keep c _ ih =>
    intro w hw hb
    cases w with
    | nil => exact List.nil_prefix
    | cons x w =>
      obtain ⟨rfl, hw2⟩ := List.cons_prefix_cons.1 hw
      exact List.cons_prefix_cons.2 ⟨rfl, ih w hw2 (fun hm => hb (List.mem_cons_of_mem _ hm))⟩
  | subst mid _ _ =>
    intro w hw hb
    cases w with
    | nil => exact List.nil_prefix
    | cons x w =>
      rw [List.cons_append] at hw
      obtain ⟨rfl, -⟩ := List.cons_prefix_cons.1 hw
      exact absurd (List.mem_cons_self _ _) hb

theorem Rep.prefix_bwd {b : Char} {name s o : List Char} (h : Rep b name s o)
    (hname : name ≠ []) : ∀ w : List Char, w <+: o → (∀ c ∈ w, c ∉ name) → w <+: s := by
  induction h with
  | nil => intro w hw _; exact hw
  | keep c _ ih =>
    intro w hw hd
    cases w with
    | nil => exact List.nil_prefix
    | cons x w =>
      obtain ⟨rfl, hw2⟩ := List.cons_prefix_cons.1 hw
      exact List.cons_prefix_cons.2 ⟨rfl, ih w hw2 (fun c hc => hd c (List.mem_cons_of_mem _ hc))⟩
  | subst mid _ _ =>
    intro w hw hd
    cases w with
    | nil => exact List.nil_prefix
    | cons x w =>
      cases name with
      | nil => exact absurd rfl hname
      | cons y name =>
        rw [List.cons_append] at hw
        obtain ⟨rfl, -⟩ := List.cons_prefix_cons.1 hw
        exact absurd (List.mem_cons_self _ _) (hd x (List.mem_cons_self _ _))

theorem infix_of_infix_append_disjoint (a b w : List Char) (h : w <:+: a ++ b)
    (hd : ∀ c ∈ w, c ∉ a) : w <:+: b := by
  induction a with
  | nil => simpa using h
  | cons x a ih =>
    rw [List.cons_append, List.infix_cons_iff] at h
    rcases h with h | h
    · cases w with
      | nil => exact List.nil_infix
      | cons y w =>
        obtain ⟨rfl, -⟩ := List.cons_prefix_cons.1 h
        exact absurd (List.mem_cons_self _ _) (hd y (List.mem_cons_self _ _))
    · exact ih h (fun c hc hm => hd c hc (List.mem_cons_of_mem _ hm))

theorem Rep.infix_bwd {b : Char} {name s o : List Char} (h : Rep b name s o)
    (hname : name ≠ []) : ∀ w : List Char, w <:+: o → (∀ c ∈ w, c ∉ name) → w <:+: s := by
  induction h with
  | nil => intro w hw _; exact hw
  | @keep c s o hr ih =>
    intro w hw hd
    rcases List.infix_cons_iff.1 hw with h | h
    · exact (hr.keep c |>.prefix_bwd hname w h hd).isInfix
    · exact (ih w h hd).trans (List.suffix_cons c s).isInfix
  | @subst mid s o _ ih =>
    intro w hw hd
    have h1 := ih w (infix_of_infix_append_disjoint _ _ w hw hd) hd
    exact h1.trans (List.suffix_append (b :: mid) s).isInfix

/-- Every catalog entry has a non-empty name made of upper-case letters and `_`, a
replacement expression that begins with a literal `{`, and an identity expression
without anchors. -/
theorem unsafePatterns_shape : ∀ p ∈ unsafePatterns,
    p.envvarName ≠ [] ∧ (∀ c ∈ p.envvarName, isNameChar c = true)
      ∧ p.replaceRegex.head? = some (Atom.chr LBRACE)
      ∧ Atom.bol ∉ p.idRegex ∧ Atom.eol ∉ p.idRegex := by
  decide

theorem getUnsafePattern_mem {v : List Char} {p : unsafePattern}
    (h : getUnsafePattern v = some p) : p ∈ unsafePatterns :=
  List.mem_of_find?_eq_some h

theorem replaceRegex_eq_cons {p : unsafePattern} (hp : p ∈ unsafePatterns) :
    ∃ re, p.replaceRegex = Atom.chr LBRACE :: re := by
  have h := (unsafePatterns_shape p hp).2.2.1
  cases hr : p.replaceRegex with
  | nil => simp [hr] at h
  | cons a re =>
    simp only [hr, List.head?_cons, Option.some.injEq] at h
    exact ⟨re, by rw [h]⟩

theorem space_ne_LBRACE {c : Char} (h : Cls.space.test c = true) : c ≠ LBRACE := by
  simp only [Cls.test, Bool.or_eq_true, beq_iff_eq] at h
  rcases h with (((rfl | rfl) | rfl) | rfl) | rfl <;> decide

theorem space_not_nameChar {c : Char} (h : Cls.space.test c = true) : isNameChar c = false := by
  simp only [Cls.test, Bool.or_eq_true, beq_iff_eq] at h
  rcases h with (((rfl | rfl) | rfl) | rfl) | rfl <;> decide

/-! ### The substitution step on the line sequence -/

theorem replaceLoop_rep (p : unsafePattern) (re : Regexp)
    (hre : p.replaceRegex = Atom.chr LBRACE :: re) (runIndent : Int) (ls : List (List Char)) :
    List.Forall₂ (Rep LBRACE p.envvarName) ls (replaceLoop p runIndent ls) := by
  induction ls with
  | nil => simp [replaceLoop]
  | cons l ls ih =>
    simp only [replaceLoop]
    split
    · refine List.Forall₂.cons ?_ ih
      unfold Regexp.ReplaceAllString
      rw [hre]
      simpa using replaceAll_rep LBRACE re p.envvarName l.length l 0 false
    · exact List.forall₂_same.2 (fun x _ => Rep.refl _ _ x)

/-- The substitution step relates every line to its replacement, line by line. -/
theorem replaceUnsafeVarWithEnvvar_rep (lines out : List (List Char)) (p : unsafePattern)
    (hp : p ∈ unsafePatterns) (runIndex : Nat)
    (h : replaceUnsafeVarWithEnvvar lines p runIndex = some out) :
    List.Forall₂ (Rep LBRACE p.envvarName) lines out := by
  obtain ⟨re, hre⟩ := replaceRegex_eq_cons hp
  unfold replaceUnsafeVarWithEnvvar at h
  cases hl : lines[runIndex]? with
  | none => simp [hl] at h
  | some line =>
    simp only [hl, Option.some.injEq] at h
    subst h
    have h1 : List.Forall₂ (Rep LBRACE p.envvarName) (lines.take runIndex) (lines.take runIndex) :=
      List.forall₂_same.2 (fun x _ => Rep.refl _ _ x)
    have h2 := List.rel_append h1 (replaceLoop_rep p re hre (getIndent line) (lines.drop runIndex))
    simpa using h2

/-- The substitution step does not panic when the index lies inside the document. -/
theorem replaceUnsafeVarWithEnvvar_isSome (lines : List (List Char)) (p : unsafePattern)
    (runIndex : Nat) (h : runIndex < lines.length) :
    ∃ out, replaceUnsafeVarWithEnvvar lines p runIndex = some out := by
  unfold replaceUnsafeVarWithEnvvar
  rw [List.getElem?_eq_getElem h]
  exact ⟨_, rfl⟩

theorem getIndent_cons (c : Char) (l : List Char) :
    getIndent (c :: l) = if " -".toList.contains c = true then getIndent l + 1 else 0 := by
  unfold getIndent strings.TrimLeft
  rw [List.dropWhile_cons]
  split
  · simp only [List.length_cons, Nat.cast_add, Nat.cast_one]
    omega
  · simp

/-- The indentation of a line is decided by any beginning of it that holds a character
other than a space or a dash. -/
theorem getIndent_append (w : List Char) (x : Char) (hx : " -".toList.contains x = false)
    (r1 r2 : List Char) : getIndent (w ++ x :: r1) = getIndent (w ++ x :: r2) := by
  induction w with
  | nil =>
    simp only [List.nil_append]
    have hx2 : ¬ (" -".toList.contains x = true) := by rw [hx]; exact Bool.false_ne_true
    rw [getIndent_cons, getIndent_cons, if_neg hx2, if_neg hx2]
  | cons c w ih => simp only [List.cons_append, getIndent_cons, ih]

theorem getIndent_nonneg (l : List Char) : 0 ≤ getIndent l := by
  induction l with
  | nil => simp [getIndent, strings.TrimLeft]
  | cons c l ih =>
    rw [getIndent_cons]
    split <;> omega

/-- The anchor `^\s*on:` is found in a line after the substitutions exactly when it is
found before them. -/
theorem MatchString_anchor_rep {name l o : List Char} (h : Rep LBRACE name l o)
    (hname : name ≠ []) (hchars : ∀ c ∈ name, isNameChar c = true) :
    Regexp.MatchString ([Atom.bol, Atom.star Cls.space] ++ lit "on:") o
      = Regexp.MatchString ([Atom.bol, Atom.star Cls.space] ++ lit "on:") l := by
  have key : ∀ ws : List Char, (∀ c ∈ ws, Cls.space.test c = true) →
      (LBRACE ∉ ws ++ "on:".toList) ∧ (∀ c ∈ ws ++ "on:".toList, c ∉ name) := by
    intro ws hws
    constructor
    · intro hm
      rcases List.mem_append.1 hm with hm | hm
      · exact space_ne_LBRACE (hws _ hm) rfl
      · revert hm; decide
    · intro c hc hn
      have h1 := hchars c hn
      rcases List.mem_append.1 hc with hm | hm
      · rw [space_not_nameChar (hws _ hm)] at h1
        exact Bool.false_ne_true h1
      · have : c = Char.ofNat 111 ∨ c = Char.ofNat 110 ∨ c = Char.ofNat 58 := by
          simpa using hm
        rcases this with rfl | rfl | rfl <;> revert h1 <;> decide
  rw [Bool.eq_iff_iff, MatchString_anchor, MatchString_anchor]
  constructor
  · rintro ⟨ws, rest, rfl, hws⟩
    have hpre : ws ++ "on:".toList <+: ws ++ ("on:".toList ++ rest) := ⟨rest, by simp⟩
    obtain ⟨t, rfl⟩ := h.prefix_bwd hname _ hpre (key ws hws).2
    exact ⟨ws, t, by simp, hws⟩
  · rintro ⟨ws, rest, rfl, hws⟩
    have hpre : ws ++ "on:".toList <+: ws ++ ("on:".toList ++ rest) := ⟨rest, by simp⟩
    obtain ⟨t, rfl⟩ := h.prefix_fwd _ hpre (key ws hws).1
    exact ⟨ws, t, by simp, hws⟩

/-- A line with the anchor keeps its indentation through the substitutions. -/
theorem getIndent_anchor_rep {name l o : List Char} (h : Rep LBRACE name l o)
    (hl : Regexp.MatchString ([Atom.bol, Atom.star Cls.space] ++ lit "on:") l = true) :
    getIndent o = getIndent l := by
  obtain ⟨ws, rest, rfl, hws⟩ := (MatchString_anchor _).1 hl
  have hb : LBRACE ∉ ws ++ "on:".toList := by
    intro hm
    rcases List.mem_append.1 hm with hm | hm
    · exact space_ne_LBRACE (hws _ hm) rfl
    · revert hm; decide
  have hpre : ws ++ "on:".toList <+: ws ++ ("on:".toList ++ rest) := ⟨rest, by simp⟩
  obtain ⟨t, rfl⟩ := h.prefix_fwd _ hpre hb
  have e1 : ws ++ "on:".toList ++ t = ws ++ Char.ofNat 111 :: ("n:".toList ++ t) := by
    simp
  have e2 : ws ++ ("on:".toList ++ rest) = ws ++ Char.ofNat 111 :: ("n:".toList ++ rest) := by
    simp
  rw [e1, e2]
  exact getIndent_append ws _ (by decide) _ _

/-- The substitution step does not change the global indentation that is found. -/
theorem findGlobalIndentation_rep {name : List Char} {lines out : List (List Char)}
    (h : List.Forall₂ (Rep LBRACE name) lines out)
    (hname : name ≠ []) (hchars : ∀ c ∈ name, isNameChar c = true) :
    findGlobalIndentation out = findGlobalIndentation lines := by
  unfold findGlobalIndentation
  induction h with
  | nil => rfl
  | @cons l o ls os hlo _ ih =>
    simp only [List.find?_cons, MatchString_anchor_rep hlo hname hchars]
    cases hm : Regexp.MatchString ([Atom.bol, Atom.star Cls.space] ++ lit "on:") l with
    | true => simp only [getIndent_anchor_rep hlo hm]
    | false => exact ih

/-! ### The block locator -/

theorem Repeat_space (n : Nat) :
    strings.Repeat " ".toList (n : Int) = some (List.replicate n (Char.ofNat 32)) := by
  unfold strings.Repeat
  simp only [Int.natCast_nonneg, if_true, Int.toNat_ofNat, Option.some.injEq]
  induction n with
  | zero => rfl
  | succ n ih =>
    rw [List.replicate_succ, List.flatten_cons, ih, List.replicate_succ]
    rfl

theorem Repeat_neg (s : List Char) (g : Int) (h : g < 0) : strings.Repeat s g = none := by
  unfold strings.Repeat
  rw [if_neg (by omega)]

/-- A key at some indentation that is found in a line after the substitutions was there
before them. -/
theorem MatchString_key_rep {name l o : List Char} (h : Rep LBRACE name l o)
    (hname : name ≠ []) (hchars : ∀ c ∈ name, isNameChar c = true) (n : Nat) (key : String)
    (hkey : ∀ c ∈ key.toList, isNameChar c = false)
    (hm : (litChars (List.replicate n (Char.ofNat 32)) ++ lit key).MatchString o = true) :
    (litChars (List.replicate n (Char.ofNat 32)) ++ lit key).MatchString l = true := by
  rw [lit_eq_litChars, ← litChars_append, MatchString_litChars] at hm ⊢
  refine h.infix_bwd hname _ hm ?_
  intro c hc hn
  have h1 := hchars c hn
  rcases List.mem_append.1 hc with hc | hc
  · rw [List.eq_of_mem_replicate hc] at h1
    revert h1
    decide
  · rw [hkey c hc] at h1
    exact Bool.false_ne_true h1

theorem findIdx_le_of_forall₂ {α : Type} {R : α → α → Prop} {p q : α → Bool} {l l2 : List α}
    (h : List.Forall₂ R l l2) (hpq : ∀ a b, R a b → q b = true → p a = true) :
    l.findIdx p ≤ l2.findIdx q := by
  induction h with
  | nil => simp
  | @cons a b l l2 hab _ ih =>
    rw [List.findIdx_cons, List.findIdx_cons]
    cases hq : q b with
    | true => simp [hpq a b hab hq]
    | false =>
      cases hp : p a with
      | true => simp
      | false => simpa using ih

/-- When `findExistingEnv` reports no block, the first line with the key is the last
line or there is none. -/
theorem findExistingEnv_not_exists_iff (lines : List (List Char)) (n : Nat) :
    findExistingEnv lines (n : Int) = some (-1, -1, false)
      ↔ lines.length ≤ lines.findIdx (fun line =>
          (litChars (List.replicate n (Char.ofNat 32)) ++ lit "env:").MatchString line) + 1 := by
  unfold findExistingEnv
  simp only [Repeat_space]
  split
  · rename_i hge
    simp only [true_iff]
    omega
  · rename_i hge
    have hlt : lines.findIdx (fun line =>
          (litChars (List.replicate n (Char.ofNat 32)) ++ lit "env:").MatchString line) + 1
          < lines.length := by omega
    rw [List.getElem?_eq_getElem hlt]
    simp only [Option.some.injEq, Prod.mk.injEq, Bool.true_eq_false, and_false, false_iff]
    omega

theorem findNewEnvPos_eq (lines : List (List Char)) (n : Nat) :
    findNewEnvPos lines (n : Int)
      = if lines.findIdx (fun line =>
            (litChars (List.replicate n (Char.ofNat 32)) ++ lit "jobs:").MatchString line)
            < lines.length
        then some (((lines.findIdx (fun line =>
            (litChars (List.replicate n (Char.ofNat 32)) ++ lit "jobs:").MatchString line) : Nat) : Int),
            true)
        else some (-1, false) := by
  unfold findNewEnvPos
  simp only [Repeat_space]

/-- The substitution step cannot make `findExistingEnv` discover a block. -/
theorem findExistingEnv_rep {name : List Char} {lines out : List (List Char)}
    (h : List.Forall₂ (Rep LBRACE name) lines out)
    (hname : name ≠ []) (hchars : ∀ c ∈ name, isNameChar c = true) (n : Nat)
    (hno : findExistingEnv lines (n : Int) = some (-1, -1, false)) :
    findExistingEnv out (n : Int) = some (-1, -1, false) := by
  rw [findExistingEnv_not_exists_iff] at hno ⊢
  have hle := findIdx_le_of_forall₂ (p := fun line =>
      (litChars (List.replicate n (Char.ofNat 32)) ++ lit "env:").MatchString line)
    (q := fun line =>
      (litChars (List.replicate n (Char.ofNat 32)) ++ lit "env:").MatchString line) h
    (fun a b hab hb => MatchString_key_rep hab hname hchars n "env:" (by decide) hb)
  have hlen := h.length_eq
  omega

/-- The substitution step cannot make `findNewEnvPos` find the jobs key. -/
theorem findNewEnvPos_rep {name : List Char} {lines out : List (List Char)}
    (h : List.Forall₂ (Rep LBRACE name) lines out)
    (hname : name ≠ []) (hchars : ∀ c ∈ name, isNameChar c = true) (n : Nat)
    (hno : findNewEnvPos lines (n : Int) = some (-1, false)) :
    findNewEnvPos out (n : Int) = some (-1, false) := by
  rw [findNewEnvPos_eq] at hno ⊢
  have hle := findIdx_le_of_forall₂ (p := fun line =>
      (litChars (List.replicate n (Char.ofNat 32)) ++ lit "jobs:").MatchString line)
    (q := fun line =>
      (litChars (List.replicate n (Char.ofNat 32)) ++ lit "jobs:").MatchString line) h
    (fun a b hab hb => MatchString_key_rep hab hname hchars n "jobs:" (by decide) hb)
  have hlen := h.length_eq
  split at hno
  · simp at hno
  · rw [if_neg (by omega)]

/-! ### The orchestrator -/

theorem runCmdIndex_lt (off len : Nat) (h1 : 1 ≤ off) (h2 : off ≤ len) :
    (off + uintSize - 1) % uintSize < len := by
  have hpos : 0 < uintSize := by unfold uintSize; positivity
  have e : off + uintSize - 1 = (off - 1) + uintSize := by omega
  rw [e, Nat.add_mod_right]
  exact lt_of_le_of_lt (Nat.mod_le _ _) (by omega)

theorem findGlobalIndentation_cases (lines : List (List Char)) :
    findGlobalIndentation lines = (-1, false)
      ∨ ∃ n : Nat, findGlobalIndentation lines = ((n : Int), true) := by
  unfold findGlobalIndentation
  cases hf : lines.find? (fun line =>
      Regexp.MatchString ([Atom.bol, Atom.star Cls.space] ++ lit "on:") line) with
  | none => exact Or.inl (by simp only [hf])
  | some line =>
    refine Or.inr ⟨(getIndent line).toNat, ?_⟩
    simp only [hf, Prod.mk.injEq, and_true]
    exact (Int.toNat_of_nonneg (getIndent_nonneg line)).symm

theorem addEnvvarsToGlobalEnv_no_anchor (lines : List (List Char)) (p : unsafePattern)
    (v : List Char) (h : findGlobalIndentation lines = (-1, false)) :
    addEnvvarsToGlobalEnv lines p v = some ([], false) := by
  unfold addEnvvarsToGlobalEnv
  simp only [h]

theorem addEnvvarsToGlobalEnv_no_jobs (lines : List (List Char)) (p : unsafePattern)
    (v : List Char) (n : Nat) (hon : findGlobalIndentation lines = ((n : Int), true))
    (henv : findExistingEnv lines (n : Int) = some (-1, -1, false))
    (hjobs : findNewEnvPos lines (n : Int) = some (-1, false)) :
    addEnvvarsToGlobalEnv lines p v = some ([], false) := by
  unfold addEnvvarsToGlobalEnv addNewGlobalEnv
  simp only [hon, henv, hjobs]

/-- The outcome of `patchWorkflow` when the declaration step fails on the lines that
the substitution step returns. -/
theorem patchWorkflow_fail (f : File) (content : List Char) (p : unsafePattern)
    (hrec : getUnsafePattern (strings.Trim f.Snippet " ".toList) = some p)
    (h1 : 1 ≤ f.Offset) (h2 : f.Offset ≤ (strings.Split content LF).length)
    (hfail : ∀ out, List.Forall₂ (Rep LBRACE p.envvarName) (strings.Split content LF) out →
      addEnvvarsToGlobalEnv out p (strings.Trim f.Snippet " ".toList) = some ([], false)) :
    patchWorkflow f content = some ([], false) := by
  obtain ⟨out, hout⟩ := replaceUnsafeVarWithEnvvar_isSome (strings.Split content LF) p _
    (runCmdIndex_lt f.Offset _ h1 h2)
  have hrep := replaceUnsafeVarWithEnvvar_rep _ _ p (getUnsafePattern_mem hrec) _ hout
  unfold patchWorkflow
  simp only [hrec, hout, hfail out hrep]

theorem GeneratePatch_of_fail (getDiff : List Char → List Char → List Char → List Char)
    (f : File) (content : List Char) (h : patchWorkflow f content = some ([], false)) :
    GeneratePatch getDiff f content = some [] := by
  unfold GeneratePatch
  simp only [h]

theorem findIdx_eq_of_first {α : Type} {p : α → Bool} {xs : List α} {i : Nat} {x : α}
    (hx : xs[i]? = some x) (hp : p x = true)
    (hfirst : ∀ k, k < i → ∀ y, xs[k]? = some y → p y = false) : xs.findIdx p = i := by
  obtain ⟨hi, hxi⟩ := List.getElem?_eq_some.1 hx
  rw [List.findIdx_eq hi]
  refine ⟨by rw [hxi]; exact hp, fun k hk => ?_⟩
  exact hfirst k hk _ (List.getElem?_eq_getElem (Nat.lt_trans hk hi))

theorem replaceLoop_length (p : unsafePattern) (runIndent : Int) (ls : List (List Char)) :
    (replaceLoop p runIndent ls).length = ls.length := by
  induction ls with
  | nil => rfl
  | cons l ls ih =>
    simp only [replaceLoop]
    split <;> simp [ih]

/-- The loop changes no line at or behind a line that stops it. -/
theorem replaceLoop_frame (p : unsafePattern) (runIndent : Int) (ls : List (List Char))
    (j k : Nat) (l : List Char) (hkj : k ≤ j) (hk : ls[k]? = some l)
    (hstop : isParentLevelIndent l runIndent = false) :
    (replaceLoop p runIndent ls)[j]? = ls[j]? := by
  induction ls generalizing j k with
  | nil => rfl
  | cons l0 ls ih =>
    simp only [replaceLoop]
    split
    · rename_i h0
      cases k with
      | zero =>
        simp only [List.getElem?_cons_zero, Option.some.injEq] at hk
        rw [hk, hstop] at h0
        exact absurd h0 Bool.false_ne_true
      | succ k =>
        cases j with
        | zero => omega
        | succ j =>
          simp only [List.getElem?_cons_succ] at hk ⊢
          exact ih j k (by omega) hk
    · rfl

theorem isParentLevelIndent_eq_false (l : List Char) (r : Int)
    (h : isBlankOrComment l = true ∨ getIndent l < r) : isParentLevelIndent l r = false := by
  unfold isParentLevelIndent
  rcases h with h | h
  · simp [h]
  · split
    · rfl
    · simp only [ge_iff_le, decide_eq_false_iff_not, not_le]
      exact h

theorem insert_eq {α : Type} (s : List α) (i : Nat) (v : List α) (h : i ≤ s.length) :
    slices.Insert s (i : Int) v = some (s.take i ++ v ++ s.drop i) := by
  unfold slices.Insert
  rw [if_pos ⟨by omega, by omega⟩]
  simp

/-- What `findExistingEnv` returns when the first line holding the key is not the last
line. -/
theorem findExistingEnv_exists (lines : List (List Char)) (n i : Nat) (next : List Char)
    (hi : lines.findIdx (fun line =>
      (litChars (List.replicate n (Char.ofNat 32)) ++ lit "env:").MatchString line) = i)
    (hnext : lines[i + 1]? = some next) :
    findExistingEnv lines (n : Int)
      = some (((i + 1 + (lines.drop (i + 1)).findIdx (fun line =>
          !(litChars (List.replicate n (Char.ofNat 32))
            ++ [Atom.plus Cls.space, Atom.one Cls.notHash]).MatchString line) : Nat) : Int),
        getIndent next, true) := by
  have hlt : i + 1 < lines.length := (List.getElem?_eq_some.1 hnext).1
  unfold findExistingEnv
  simp only [Repeat_space, hi]
  rw [if_neg (by omega)]
  simp only [hnext]

/-! ### Lines and text -/

theorem Split_not_mem (s : List Char) (sep : Char) : ∀ l ∈ strings.Split s sep, sep ∉ l := by
  induction s with
  | nil => simp [strings.Split]
  | cons c cs ih =>
    simp only [strings.Split]
    split
    · intro l hl
      rcases List.mem_cons.1 hl with rfl | hl
      · simp
      · exact ih l hl
    · rename_i hc
      split
      · rename_i l0 ls heq
        intro l hl
        rw [heq] at ih
        rcases List.mem_cons.1 hl with rfl | hl
        · intro hm
          rcases List.mem_cons.1 hm with rfl | hm
          · exact hc rfl
          · exact ih l0 (List.mem_cons_self _ _) hm
        · exact ih l (List.mem_cons_of_mem _ hl)
      · intro l hl
        simp only [List.mem_singleton] at hl
        subst hl
        simp only [List.mem_singleton]
        exact fun h => hc h.symm

theorem Split_of_not_mem (l : List Char) (sep : Char) (h : sep ∉ l) :
    strings.Split l sep = [l] := by
  induction l with
  | nil => rfl
  | cons c l ih =>
    simp only [List.mem_cons, not_or] at h
    simp only [strings.Split, if_neg (fun e : c = sep => h.1 e.symm), ih h.2]

theorem Split_append (l rest : List Char) (sep : Char) (h : sep ∉ l) :
    strings.Split (l ++ sep :: rest) sep = l :: strings.Split rest sep := by
  induction l with
  | nil => simp [strings.Split]
  | cons c l ih =>
    simp only [List.mem_cons, not_or] at h
    rw [List.cons_append]
    simp only [strings.Split, if_neg (fun e : c = sep => h.1 e.symm)]
    rw [ih h.2]

/-- Splitting the joined lines gives the lines back when no line holds a line feed. -/
theorem Split_Join (ls : List (List Char)) (sep : Char) (hne : ls ≠ [])
    (h : ∀ l ∈ ls, sep ∉ l) : strings.Split (strings.Join ls [sep]) sep = ls := by
  induction ls with
  | nil => exact absurd rfl hne
  | cons l ls ih =>
    cases ls with
    | nil =>
      simp only [strings.Join]
      exact Split_of_not_mem l sep (h l (List.mem_cons_self _ _))
    | cons l2 ls =>
      simp only [strings.Join, List.append_assoc, List.singleton_append]
      rw [Split_append l _ sep (h l (List.mem_cons_self _ _)),
        ih (by simp) (fun x hx => h x (List.mem_cons_of_mem _ hx))]

theorem Rep.not_mem {b : Char} {name s o : List Char} (h : Rep b name s o) (x : Char)
    (hs : x ∉ s) (hn : x ∉ name) : x ∉ o := by
  induction h with
  | nil => exact hs
  | keep c _ ih =>
    simp only [List.mem_cons, not_or] at hs ⊢
    exact ⟨hs.1, ih hs.2⟩
  | subst mid _ ih =>
    simp only [List.mem_cons, List.mem_append, not_or] at hs ⊢
    exact ⟨hn, ih hs.2⟩

theorem insert_some {α : Type} (s out : List α) (i : Int) (v : List α)
    (h : slices.Insert s i v = some out) :
    ∃ n : Nat, i = (n : Int) ∧ n ≤ s.length ∧ out = s.take n ++ v ++ s.drop n := by
  unfold slices.Insert at h
  split at h
  · rename_i hi
    simp only [Option.some.injEq] at h
    exact ⟨i.toNat, by omega, by omega, h.symm⟩
  · simp at h

theorem Repeat_some (g : Int) (r : List Char) (h : strings.Repeat " ".toList g = some r) :
    ∃ n : Nat, g = (n : Int) ∧ r = List.replicate n (Char.ofNat 32) := by
  by_cases hg : 0 ≤ g
  · obtain ⟨n, rfl⟩ := Int.eq_ofNat_of_zero_le hg
    rw [Repeat_space] at h
    exact ⟨n, rfl, by simpa using h.symm⟩
  · rw [Repeat_neg _ g (by omega)] at h
    simp at h

/-- The last part of `addEnvvarsToGlobalEnv`: the insertion of the declaration. -/
theorem insertDefinition_some (ls o : List (List Char)) (pos ind : Int) (d : List Char)
    (h : (match strings.Repeat " ".toList ind with
      | none => none
      | some indent =>
        match slices.Insert ls pos [indent ++ d] with
        | none => none
        | some lines => some (lines, true)) = some (o, true)) :
    ∃ e k : Nat, pos = (e : Int) ∧ e ≤ ls.length
      ∧ o = ls.take e ++ [List.replicate k (Char.ofNat 32) ++ d] ++ ls.drop e := by
  cases hrep : strings.Repeat " ".toList ind with
  | none =>
    rw [hrep] at h
    simp at h
  | some indent =>
    obtain ⟨k, -, rfl⟩ := Repeat_some _ _ hrep
    rw [hrep] at h
    cases hins : slices.Insert ls pos [List.replicate k (Char.ofNat 32) ++ d] with
    | none =>
      simp only [hins] at h
      simp at h
    | some o2 =>
      simp only [hins, Option.some.injEq, Prod.mk.injEq, and_true] at h
      obtain ⟨e, he, hle, rfl⟩ := insert_some _ _ _ _ hins
      exact ⟨e, k, he, hle, h.symm⟩

/-- The shape of a successful declaration step: one line inserted, or the header, the
line and an empty line. -/
theorem addEnvvarsToGlobalEnv_success (lines out : List (List Char)) (p : unsafePattern)
    (v : List Char) (h : addEnvvarsToGlobalEnv lines p v = some (out, true)) :
    ∃ e k g : Nat, e ≤ lines.length
      ∧ (out = lines.take e
            ++ [List.replicate k (Char.ofNat 32) ++ envvarDefinition p.envvarName v]
            ++ lines.drop e
        ∨ out = lines.take e
            ++ [List.replicate g (Char.ofNat 32) ++ "env:".toList,
                List.replicate k (Char.ofNat 32) ++ envvarDefinition p.envvarName v, []]
            ++ lines.drop e) := by
  unfold addEnvvarsToGlobalEnv at h
  rcases findGlobalIndentation_cases lines with hg | ⟨g, hg⟩
  · simp [hg] at h
  · simp only [hg] at h
    cases hex : findExistingEnv lines (g : Int) with
    | none => simp [hex] at h
    | some r =>
      obtain ⟨envPos, envvarIndent, b⟩ := r
      cases b with
      | true =>
        simp only [hex] at h
        obtain ⟨e, k, -, hle, ho⟩ := insertDefinition_some lines out envPos envvarIndent
          (envvarDefinition p.envvarName v) h
        exact ⟨e, k, 0, hle, Or.inl ho⟩
      | false =>
        simp only [hex] at h
        unfold addNewGlobalEnv at h
        rw [findNewEnvPos_eq] at h
        by_cases hlt : lines.findIdx (fun line =>
            (litChars (List.replicate g (Char.ofNat 32)) ++ lit "jobs:").MatchString line)
            < lines.length
        · rw [if_pos hlt] at h
          simp only [Repeat_space, insert_eq lines _ _ (le_of_lt hlt)] at h
          generalize lines.findIdx (fun line =>
            (litChars (List.replicate g (Char.ofNat 32)) ++ lit "jobs:").MatchString line) = j
            at h hlt
          obtain ⟨e, k, he, -, ho⟩ := insertDefinition_some
            (lines.take j ++ [List.replicate g (Char.ofNat 32) ++ "env:".toList, []]
              ++ lines.drop j) out ((j : Int) + 1) ((g : Int) + assumedIndent)
            (envvarDefinition p.envvarName v) h
          have he2 : e = j + 1 := by omega
          subst he2
          refine ⟨j, k, g, le_of_lt hlt, Or.inr ?_⟩
          rw [ho]
          have htake : (lines.take j).length = j := by simp; omega
          rw [List.append_assoc (lines.take j), List.take_append_eq_append_take,
            List.drop_append_eq_append_drop, htake]
          simp [List.take_take]
        · rw [if_neg hlt] at h
          simp at h

theorem forall₂_mem_right {α : Type} {R : α → α → Prop} {a b : List α}
    (h : List.Forall₂ R a b) : ∀ y ∈ b, ∃ x ∈ a, R x y := by
  induction h with
  | nil => simp
  | cons hxy _ ih =>
    intro y hy
    rcases List.mem_cons.1 hy with rfl | hy
    · exact ⟨_, List.mem_cons_self _ _, hxy⟩
    · obtain ⟨x, hx, hr⟩ := ih y hy
      exact ⟨x, List.mem_cons_of_mem _ hx, hr⟩

theorem LF_not_nameChar : isNameChar LF = false := by decide

theorem LF_not_mem_name {name : List Char} (hchars : ∀ c ∈ name, isNameChar c = true) :
    LF ∉ name := by
  intro hm
  have := hchars LF hm
  rw [LF_not_nameChar] at this
  exact Bool.false_ne_true this

theorem LF_not_mem_replicate (n : Nat) : LF ∉ List.replicate n (Char.ofNat 32) := by
  intro hm
  have := List.eq_of_mem_replicate hm
  revert this
  decide

theorem LF_not_mem_envvarDefinition {name v : List Char} (hn : LF ∉ name) (hv : LF ∉ v) :
    LF ∉ envvarDefinition name v := by
  unfold envvarDefinition
  simp only [List.mem_append, not_or]
  exact ⟨⟨⟨hn, by decide⟩, hv⟩, by decide⟩

/-! ### The indentation model -/

theorem getIndent_eq_takeWhile (line : List Char) :
    getIndent line
      = ((line.takeWhile (fun c => c == Char.ofNat 32 || c == Char.ofNat 45)).length : Int) := by
  induction line with
  | nil => rfl
  | cons c l ih =>
    rw [getIndent_cons, List.takeWhile_cons]
    have hc : (" -".toList.contains c) = (c == Char.ofNat 32 || c == Char.ofNat 45) := by
      show ([Char.ofNat 32, Char.ofNat 45].contains c) = _
      simp only [List.contains, List.elem]
      cases (c == Char.ofNat 32) <;> cases (c == Char.ofNat 45) <;> rfl
    rw [hc]
    cases (c == Char.ofNat 32 || c == Char.ofNat 45) with
    | true => simp [ih]
    | false => simp

/-- The expression `^\s*$` matches the lines made of whitespace only. -/
theorem MatchString_blank (line : List Char) :
    Regexp.MatchString [Atom.bol, Atom.star Cls.space, Atom.eol] line = true
      ↔ ∀ c ∈ line, Cls.space.test c = true := by
  rw [MatchString_bol, matchHere_star, starGreedy_isSome]
  constructor
  · rintro ⟨u, v, rfl, hu, hk⟩
    cases v with
    | nil => simpa using hu
    | cons x xs => simp [matchHere] at hk
  · intro h
    exact ⟨line, [], by simp, h, by simp [matchHere]⟩

/-- The expression `^\s*#` matches the lines whose first character after the leading
whitespace is `#`. -/
theorem MatchString_comment (line : List Char) :
    Regexp.MatchString ([Atom.bol, Atom.star Cls.space] ++ lit "#") line = true
      ↔ ∃ ws rest, line = ws ++ Char.ofNat 35 :: rest ∧ ∀ c ∈ ws, Cls.space.test c = true := by
  rw [show ([Atom.bol, Atom.star Cls.space] ++ lit "#")
      = Atom.bol :: Atom.star Cls.space :: (litChars "#".toList ++ []) by simp [lit, litChars],
    MatchString_bol, matchHere_star, starGreedy_isSome]
  constructor
  · rintro ⟨u, v, rfl, hu, hk⟩
    obtain ⟨t, rfl, -⟩ := (matchHere_litChars_isSome _ _ _ _).1 hk
    exact ⟨u, t, rfl, hu⟩
  · rintro ⟨ws, rest, rfl, hws⟩
    exact ⟨ws, _, rfl, hws,
      (matchHere_litChars_isSome _ _ "#".toList _).2 ⟨rest, rfl, by simp [matchHere]⟩⟩

/-! ### The replacement loop -/

/-- The length of the whole text matters to `^` only. -/
theorem matchHere_length_irrelevant (n n2 : Nat) (re : Regexp) (hre : anchorFree re) :
    matchHere n re = matchHere n2 re := by
  induction re with
  | nil => rfl
  | cons a re ih =>
    obtain ⟨hb, he, hre2⟩ := anchorFree_cons hre
    have ih2 := ih hre2
    funext s
    cases a with
    | chr c => cases s <;> simp only [matchHere, ih2]
    | one k => cases s <;> simp only [matchHere, ih2]
    | star k => simp only [matchHere, ih2]
    | lazyStar k => simp only [matchHere, ih2]
    | plus k => cases s <;> simp only [matchHere, ih2]
    | bol => exact absurd rfl hb
    | eol => exact absurd rfl he

theorem matchHere_chr_ne (n : Nat) (b : Char) (re : Regexp) (c : Char) (cs : List Char)
    (h : c ≠ b) : matchHere n (Atom.chr b :: re) (c :: cs) = none := by
  simp [matchHere, h]

theorem matchHere_chr_ne_zero (n : Nat) (b : Char) (re : Regexp) (s : List Char) :
    matchHere n (Atom.chr b :: re) s ≠ some 0 := by
  cases s with
  | nil => simp [matchHere]
  | cons c cs =>
    simp only [matchHere]
    split
    · cases matchHere n re cs <;> simp
    · simp

/-- For an expression without anchors that begins with a literal, the replacement does
not depend on the length of the whole text nor on the flag of the last match. -/
theorem replaceAll_irrelevant (b : Char) (re : Regexp) (hre : anchorFree (Atom.chr b :: re))
    (name : List Char) (n n2 : Nat) (s : List Char) (skip : Nat) (am am2 : Bool) :
    replaceAll (Atom.chr b :: re) name n s skip am
      = replaceAll (Atom.chr b :: re) name n2 s skip am2 := by
  induction s generalizing skip am am2 with
  | nil =>
    cases skip with
    | zero => simp [replaceAll, matchHere]
    | succ k => simp [replaceAll]
  | cons c cs ih =>
    cases skip with
    | succ k =>
      simp only [replaceAll]
      exact ih k true true
    | zero =>
      simp only [replaceAll]
      rw [matchHere_length_irrelevant n n2 _ hre]
      cases h : matchHere n2 (Atom.chr b :: re) (c :: cs) with
      | none =>
        simp only
        rw [ih 0 false false]
      | some m =>
        cases m with
        | zero => exact absurd h (matchHere_chr_ne_zero _ _ _ _)
        | succ m =>
          simp only
          rw [ih m true true]

/-- Characters other than the first literal of the expression are copied. -/
theorem replaceAll_copy (b : Char) (re : Regexp) (name : List Char) (n : Nat)
    (pre t : List Char) (am : Bool) (hpre : b ∉ pre) :
    replaceAll (Atom.chr b :: re) name n (pre ++ t) 0 am
      = pre ++ replaceAll (Atom.chr b :: re) name n t 0 (if pre = [] then am else false) := by
  induction pre generalizing am with
  | nil => simp
  | cons c pre ih =>
    simp only [List.mem_cons, not_or] at hpre
    rw [List.cons_append]
    simp only [replaceAll, matchHere_chr_ne n b re c _ (fun e => hpre.1 e.symm)]
    rw [ih false hpre.2]
    simp

/-- The characters covered by a match are dropped. -/
theorem replaceAll_skip (re : Regexp) (name : List Char) (n : Nat) (w t : List Char)
    (x : Char) (am : Bool) :
    replaceAll re name n (x :: w ++ t) (w.length + 1) am = replaceAll re name n t 0 true := by
  induction w generalizing x am with
  | nil => simp [replaceAll]
  | cons c w ih =>
    simp only [List.cons_append, List.length_cons, replaceAll]
    exact ih c true

/-- Inside the span every line is replaced by its `ReplaceAllString`. -/
theorem replaceLoop_span (p : unsafePattern) (runIndent : Int) (ls : List (List Char))
    (j : Nat) (l : List Char) (hl : ls[j]? = some l)
    (hspan : ∀ k, k ≤ j → ∀ l2, ls[k]? = some l2 → isParentLevelIndent l2 runIndent = true) :
    (replaceLoop p runIndent ls)[j]? = some (p.replaceRegex.ReplaceAllString l p.envvarName) := by
  induction ls generalizing j with
  | nil => simp at hl
  | cons l0 ls ih =>
    simp only [replaceLoop]
    rw [if_pos (hspan 0 (Nat.zero_le _) l0 (by simp))]
    cases j with
    | zero =>
      simp only [List.getElem?_cons_zero, Option.some.injEq] at hl ⊢
      rw [hl]
    | succ j =>
      simp only [List.getElem?_cons_succ] at hl ⊢
      exact ih j hl (fun k hk l2 hl2 => hspan (k + 1) (by omega) l2 (by simpa using hl2))

/-- A line of the span is replaced by its `ReplaceAllString`. -/
theorem replaceUnsafeVarWithEnvvar_span (lines : List (List Char)) (p : unsafePattern)
    (runIndex j : Nat) (first l : List Char) (hfirst : lines[runIndex]? = some first)
    (hj : runIndex ≤ j) (hl : lines[j]? = some l)
    (hspan : ∀ k, runIndex ≤ k → k ≤ j → ∀ l2, lines[k]? = some l2 →
      isParentLevelIndent l2 (getIndent first) = true) :
    ∃ out, replaceUnsafeVarWithEnvvar lines p runIndex = some out
      ∧ out[j]? = some (p.replaceRegex.ReplaceAllString l p.envvarName) := by
  unfold replaceUnsafeVarWithEnvvar
  simp only [hfirst]
  refine ⟨_, rfl, ?_⟩
  have hlt : runIndex < lines.length := (List.getElem?_eq_some.1 hfirst).1
  have hlen : (lines.take runIndex).length = runIndex := by
    simp only [List.length_take]
    omega
  rw [List.getElem?_append_right (by omega), hlen]
  refine replaceLoop_span p _ _ (j - runIndex) l ?_ ?_
  · rw [List.getElem?_drop, ← hl]
    congr 1
    omega
  · intro k hk l2 hl2
    rw [List.getElem?_drop] at hl2
    exact hspan (runIndex + k) (by omega) (by omega) l2 hl2

/-! ### List items -/

theorem isBlankOrComment_iff (line : List Char) :
    isBlankOrComment line = true
      ↔ (∀ c ∈ line, Cls.space.test c = true)
        ∨ ∃ ws rest, line = ws ++ Char.ofNat 35 :: rest ∧ ∀ c ∈ ws, Cls.space.test c = true := by
  unfold isBlankOrComment
  simp only [Bool.or_eq_true]
  rw [MatchString_blank, MatchString_comment]

theorem isBlankOrComment_space_cons (l : List Char) :
    isBlankOrComment (Char.ofNat 32 :: l) = isBlankOrComment l := by
  rw [Bool.eq_iff_iff, isBlankOrComment_iff, isBlankOrComment_iff]
  have hsp : Cls.space.test (Char.ofNat 32) = true := by decide
  constructor
  · rintro (h | ⟨ws, rest, heq, hws⟩)
    · exact Or.inl (fun c hc => h c (List.mem_cons_of_mem _ hc))
    · cases ws with
      | nil =>
        simp only [List.nil_append, List.cons.injEq] at heq
        exact absurd heq.1 (by decide)
      | cons x ws =>
        simp only [List.cons_append, List.cons.injEq] at heq
        exact Or.inr ⟨ws, rest, heq.2, fun c hc => hws c (List.mem_cons_of_mem _ hc)⟩
  · rintro (h | ⟨ws, rest, heq, hws⟩)
    · refine Or.inl (fun c hc => ?_)
      rcases List.mem_cons.1 hc with rfl | hc
      · exact hsp
      · exact h c hc
    · refine Or.inr ⟨Char.ofNat 32 :: ws, rest, by rw [heq]; rfl, fun c hc => ?_⟩
      rcases List.mem_cons.1 hc with rfl | hc
      · exact hsp
      · exact hws c hc

theorem isBlankOrComment_dash_cons (l : List Char) :
    isBlankOrComment (Char.ofNat 45 :: l) = false := by
  rw [Bool.eq_false_iff]
  intro h
  rcases (isBlankOrComment_iff _).1 h with h | ⟨ws, rest, heq, hws⟩
  · exact absurd (h _ (List.mem_cons_self _ _)) (by decide)
  · cases ws with
    | nil =>
      simp only [List.nil_append, List.cons.injEq] at heq
      exact absurd heq.1 (by decide)
    | cons x ws =>
      simp only [List.cons_append, List.cons.injEq] at heq
      exact absurd (heq.1 ▸ hws x (List.mem_cons_self _ _)) (by decide)

/-- A list item `- run:` behind `k` spaces is not blank, not a comment, and has the
indentation `k + 2`. -/
theorem listItem_indent (k : Nat) (r : List Char) :
    isBlankOrComment (List.replicate k (Char.ofNat 32) ++ "- run:".toList ++ r) = false
      ∧ getIndent (List.replicate k (Char.ofNat 32) ++ "- run:".toList ++ r) = (k : Int) + 2 := by
  induction k with
  | zero =>
    constructor
    · exact isBlankOrComment_dash_cons _
    · show getIndent (Char.ofNat 45 :: Char.ofNat 32 :: Char.ofNat 114 :: (" un:".toList.tail ++ r))
        = _
      rw [getIndent_cons, if_pos (by decide), getIndent_cons, if_pos (by decide), getIndent_cons,
        if_neg (by decide)]
      rfl
  | succ k ih =>
    rw [List.replicate_succ, List.cons_append, List.cons_append]
    constructor
    · rw [isBlankOrComment_space_cons]
      exact ih.1
    · rw [getIndent_cons, if_pos (by decide), ih.2]
      push_cast
      ring

/-! ### No occurrence is left -/

/-- The shape of the replacement expression of every catalog entry:
`{{\s*.*?` + idRegex + `.*?\s*}}`. -/
theorem replaceRegex_shape : ∀ p ∈ unsafePatterns,
    p.replaceRegex = Atom.chr LBRACE :: Atom.chr LBRACE :: Atom.star Cls.space
      :: Atom.lazyStar Cls.any
      :: (p.idRegex ++ [Atom.lazyStar Cls.any, Atom.star Cls.space,
            Atom.chr (Char.ofNat 125), Atom.chr (Char.ofNat 125)]) := by
  decide

theorem search_length_irrelevant (n n2 : Nat) (re : Regexp) (hre : anchorFree re)
    (s : List Char) : search re n s = search re n2 s := by
  induction s with
  | nil => simp only [search, matchHere_length_irrelevant n n2 re hre]
  | cons c cs ih => simp only [search, matchHere_length_irrelevant n n2 re hre, ih]

/-- Text without line feeds in front of a match of `\s*.*?…` is taken in by `.*?`. -/
theorem matchHere_absorb (n : Nat) (rest : Regexp) (w t : List Char)
    (hw : LF ∉ w) (ht : LF ∉ t)
    (h : (matchHere n (Atom.star Cls.space :: Atom.lazyStar Cls.any :: rest) t).isSome) :
    (matchHere n (Atom.star Cls.space :: Atom.lazyStar Cls.any :: rest) (w ++ t)).isSome := by
  simp only [matchHere] at h ⊢
  obtain ⟨u1, v1, rfl, hu1, h1⟩ := (starGreedy_isSome _ _ _).1 h
  obtain ⟨u2, v2, rfl, hu2, h2⟩ := (starLazy_isSome _ _ _).1 h1
  refine (starGreedy_isSome _ _ _).2 ⟨[], w ++ (u1 ++ (u2 ++ v2)), rfl, by simp, ?_⟩
  refine (starLazy_isSome _ _ _).2 ⟨w ++ u1 ++ u2, v2, by simp, ?_, h2⟩
  intro c hc
  simp only [List.mem_append] at hc ht
  rcases hc with (hc | hc) | hc
  · simp only [Cls.test, bne_iff_ne, ne_eq]
    exact fun e => hw (e ▸ hc)
  · simp only [Cls.test, bne_iff_ne, ne_eq]
    exact fun e => ht (Or.inl (e ▸ hc))
  · exact hu2 c hc

theorem matchHere_two_chr (n : Nat) (b : Char) (re : Regexp) (s : List Char) :
    (matchHere n (Atom.chr b :: Atom.chr b :: re) s).isSome
      ↔ ∃ t, s = b :: b :: t ∧ (matchHere n re t).isSome := by
  have := matchHere_litChars_isSome n re [b, b] s
  simpa [litChars] using this

theorem search_eq_none_of_not_isSome {re : Regexp} {n : Nat} {s : List Char}
    (h : ¬ (search re n s).isSome) : search re n s = none := by
  cases hs : search re n s with
  | none => rfl
  | some r => simp [hs] at h

/-- A text without a match is returned as it is. -/
theorem replaceAll_of_no_match (b : Char) (re : Regexp) (name : List Char) (n : Nat)
    (s : List Char) (am : Bool) (h : search (Atom.chr b :: re) n s = none) :
    replaceAll (Atom.chr b :: re) name n s 0 am = s := by
  induction s generalizing am with
  | nil => simp [replaceAll, matchHere]
  | cons c cs ih =>
    simp only [search] at h
    cases hm : matchHere n (Atom.chr b :: re) (c :: cs) with
    | some m => simp [hm] at h
    | none =>
      simp only [hm, Option.map_eq_none'] at h
      simp only [replaceAll, hm, ih false h]

theorem search_append_of_ne (b : Char) (re : Regexp) (n : Nat) (pre t : List Char)
    (hpre : b ∉ pre) (h : search (Atom.chr b :: re) n t = none) :
    search (Atom.chr b :: re) n (pre ++ t) = none := by
  induction pre with
  | nil => exact h
  | cons x pre ih =>
    simp only [List.mem_cons, not_or] at hpre
    rw [List.cons_append]
    simp only [search, matchHere_chr_ne n b re x _ (fun e => hpre.1 e.symm), ih hpre.2,
      Option.map_none']

/-- After the replacement no match of the expression is left, for a text without line
feeds and an expression of the shape `bb\s*.*?…`. -/
theorem search_replaceAll (b : Char) (rest : Regexp) (name : List Char) (hname : b ∉ name)
    (n : Nat) (s : List Char) (hs : LF ∉ s) (skip : Nat) (am : Bool) :
    search (Atom.chr b :: Atom.chr b :: Atom.star Cls.space :: Atom.lazyStar Cls.any :: rest) n
      (replaceAll
        (Atom.chr b :: Atom.chr b :: Atom.star Cls.space :: Atom.lazyStar Cls.any :: rest)
        name n s skip am) = none := by
  induction s generalizing skip am with
  | nil =>
    cases skip with
    | zero => simp [replaceAll, matchHere, search]
    | succ k => simp [replaceAll, matchHere, search]
  | cons c cs ih =>
    simp only [List.mem_cons, not_or] at hs
    cases skip with
    | succ k =>
      simp only [replaceAll]
      exact ih hs.2 k true
    | zero =>
      simp only [replaceAll]
      cases hm : matchHere n
          (Atom.chr b :: Atom.chr b :: Atom.star Cls.space :: Atom.lazyStar Cls.any :: rest)
          (c :: cs) with
      | some m =>
        cases m with
        | zero => exact absurd hm (matchHere_chr_ne_zero _ _ _ _)
        | succ m =>
          simp only
          exact search_append_of_ne b _ n name _ hname (ih hs.2 m true)
      | none =>
        simp only
        have ih0 := ih hs.2 0 false
        rw [search, ih0]
        by_cases hcb : c = b
        · subst hcb
          cases cs with
          | nil => simp [replaceAll, matchHere]
          | cons d ds =>
            by_cases hdb : d = c
            · subst hdb
              have hnone : search
                  (Atom.chr d :: Atom.chr d :: Atom.star Cls.space :: Atom.lazyStar Cls.any
                    :: rest) n (d :: ds) = none := by
                apply search_eq_none_of_not_isSome
                intro hsome
                obtain ⟨a, t, hat, ht⟩ := (search_isSome _ _ _).1 hsome
                obtain ⟨t1, rfl, ht1⟩ := (matchHere_two_chr _ _ _ _).1 ht
                have hds : ∃ w, ds = w ++ t1 ∧ LF ∉ w := by
                  simp only [List.mem_cons, not_or] at hs
                  cases a with
                  | nil =>
                    simp only [List.nil_append, List.cons.injEq, true_and] at hat
                    exact ⟨[d], by rw [hat]; rfl, by simpa using hs.1⟩
                  | cons x a =>
                    simp only [List.cons_append, List.cons.injEq] at hat
                    refine ⟨a ++ [d, d], by rw [hat.2]; simp, ?_⟩
                    have hsub : LF ∉ ds := hs.2.2
                    rw [hat.2] at hsub
                    simp only [List.mem_append, List.mem_cons, not_or] at hsub ⊢
                    exact ⟨hsub.1, hs.1, hs.1, by simp⟩
                obtain ⟨w, rfl, hw⟩ := hds
                have ht1' : LF ∉ t1 := by
                  have := hs.2
                  simp only [List.mem_cons, List.mem_append, not_or] at this
                  exact this.2.2
                have := (matchHere_two_chr n d _ (d :: d :: (w ++ t1))).2
                  ⟨w ++ t1, rfl, matchHere_absorb n rest w t1 hw ht1' ht1⟩
                rw [hm] at this
                simp at this
              rw [replaceAll_of_no_match d _ name n (d :: ds) false hnone, hm]
              rfl
            · simp only [replaceAll, matchHere_chr_ne n c _ d ds hdb]
              simp [matchHere, hdb]
        · simp [matchHere_chr_ne n b _ c _ hcb]

theorem LBRACE_not_mem_name {name : List Char} (hchars : ∀ c ∈ name, isNameChar c = true) :
    LBRACE ∉ name := by
  intro hm
  have := hchars LBRACE hm
  revert this
  decide

/-- After `ReplaceAllString` with a catalog entry no match of its replacement expression
is left in a line. -/
theorem MatchString_ReplaceAllString (p : unsafePattern) (hp : p ∈ unsafePatterns)
    (l : List Char) (hl : LF ∉ l) :
    p.replaceRegex.MatchString (p.replaceRegex.ReplaceAllString l p.envvarName) = false := by
  have hshape := unsafePatterns_shape p hp
  have hR := replaceRegex_shape p hp
  have hfree : anchorFree p.replaceRegex := by
    rw [hR]
    unfold anchorFree
    have h1 := hshape.2.2.2.1
    have h2 := hshape.2.2.2.2
    simp only [List.mem_cons, List.mem_append, List.mem_singleton, not_or]
    refine ⟨⟨by decide, by decide, by decide, by decide, h1, by decide⟩,
      ⟨by decide, by decide, by decide, by decide, h2, by decide⟩⟩
  unfold Regexp.MatchString Regexp.ReplaceAllString
  rw [search_length_irrelevant _ l.length _ hfree]
  have := search_replaceAll LBRACE
    (p.idRegex ++ [Atom.lazyStar Cls.any, Atom.star Cls.space,
      Atom.chr (Char.ofNat 125), Atom.chr (Char.ofNat 125)]) p.envvarName (LBRACE_not_mem_name hshape.2.1) l.length l hl
    0 false
  rw [← hR] at this
  rw [this]
  rfl

/-! ### The wrapped snippet is matched -/

theorem matchHere_lazyStar (n : Nat) (k : Cls) (re : Regexp) (s : List Char) :
    matchHere n (Atom.lazyStar k :: re) s = starLazy k.test (matchHere n re) s := by
  simp only [matchHere]

/-- A match of an expression without anchors can be continued by any expression that
matches behind it. -/
theorem matchHere_seq (n : Nat) (re1 : Regexp) (hre : anchorFree re1) (t : List Char)
    (h : (matchHere n re1 t).isSome) :
    ∃ x y, t = x ++ y ∧ ∀ (re2 : Regexp) (z : List Char),
      (matchHere n re2 (y ++ z)).isSome → (matchHere n (re1 ++ re2) (t ++ z)).isSome := by
  induction re1 generalizing t with
  | nil => exact ⟨[], t, rfl, fun re2 z hz => by simpa using hz⟩
  | cons a re ih =>
    obtain ⟨hb, he, hre2⟩ := anchorFree_cons hre
    cases a with
    | chr c =>
      cases t with
      | nil => simp [matchHere] at h
      | cons x xs =>
        simp only [matchHere] at h
        by_cases hx : x = c
        · simp only [hx, if_true, Option.isSome_map'] at h
          obtain ⟨x1, y1, rfl, hk⟩ := ih hre2 xs h
          refine ⟨x :: x1, y1, rfl, fun re2 z hz => ?_⟩
          simp only [List.cons_append, matchHere, hx, if_true, Option.isSome_map']
          exact hk re2 z hz
        · simp [hx] at h
    | one k =>
      cases t with
      | nil => simp [matchHere] at h
      | cons x xs =>
        simp only [matchHere] at h
        by_cases hx : k.test x = true
        · simp only [hx, if_true, Option.isSome_map'] at h
          obtain ⟨x1, y1, rfl, hk⟩ := ih hre2 xs h
          refine ⟨x :: x1, y1, rfl, fun re2 z hz => ?_⟩
          simp only [List.cons_append, matchHere, hx, if_true, Option.isSome_map']
          exact hk re2 z hz
        · simp [hx] at h
    | star k =>
      rw [matchHere_star] at h
      obtain ⟨u, v, rfl, hu, hv⟩ := (starGreedy_isSome _ _ _).1 h
      obtain ⟨x1, y1, rfl, hk⟩ := ih hre2 v hv
      refine ⟨u ++ x1, y1, by simp, fun re2 z hz => ?_⟩
      rw [List.cons_append, matchHere_star]
      exact (starGreedy_isSome _ _ _).2 ⟨u, x1 ++ y1 ++ z, by simp, hu, hk re2 z hz⟩
    | lazyStar k =>
      rw [matchHere_lazyStar] at h
      obtain ⟨u, v, rfl, hu, hv⟩ := (starLazy_isSome _ _ _).1 h
      obtain ⟨x1, y1, rfl, hk⟩ := ih hre2 v hv
      refine ⟨u ++ x1, y1, by simp, fun re2 z hz => ?_⟩
      rw [List.cons_append, matchHere_lazyStar]
      exact (starLazy_isSome _ _ _).2 ⟨u, x1 ++ y1 ++ z, by simp, hu, hk re2 z hz⟩
    | plus k =>
      cases t with
      | nil => simp [matchHere] at h
      | cons x xs =>
        simp only [matchHere] at h
        by_cases hx : k.test x = true
        · simp only [hx, if_true, Option.isSome_map'] at h
          obtain ⟨u, v, rfl, hu, hv⟩ := (starGreedy_isSome _ _ _).1 h
          obtain ⟨x1, y1, rfl, hk⟩ := ih hre2 v hv
          refine ⟨x :: (u ++ x1), y1, by simp, fun re2 z hz => ?_⟩
          simp only [List.cons_append, matchHere, hx, if_true, Option.isSome_map']
          exact (starGreedy_isSome _ _ _).2 ⟨u, x1 ++ y1 ++ z, by simp, hu, hk re2 z hz⟩
        · simp [hx] at h
    | bol => exact absurd rfl hb
    | eol => exact absurd rfl he

theorem any_of_not_mem {w : List Char} (hw : LF ∉ w) : ∀ c ∈ w, Cls.any.test c = true := by
  intro c hc
  simp only [Cls.test, bne_iff_ne, ne_eq]
  exact fun e => hw (e ▸ hc)

/-- The end of the replacement expression, `.*?\s*}}`, matches ` }}` behind any text
without line feeds. -/
theorem matchHere_closing (n : Nat) (y post : List Char) (hy : LF ∉ y) :
    (matchHere n [Atom.lazyStar Cls.any, Atom.star Cls.space,
        Atom.chr (Char.ofNat 125), Atom.chr (Char.ofNat 125)]
      (y ++ (" \x7d\x7d".toList ++ post))).isSome := by
  rw [matchHere_lazyStar]
  refine (starLazy_isSome _ _ _).2 ⟨y, " \x7d\x7d".toList ++ post, rfl, any_of_not_mem hy, ?_⟩
  rw [matchHere_star]
  refine (starGreedy_isSome _ _ _).2 ⟨[Char.ofNat 32], "\x7d\x7d".toList ++ post, rfl, ?_, ?_⟩
  · intro c hc
    rw [List.mem_singleton.1 hc]
    decide
  · show (matchHere n [Atom.chr (Char.ofNat 125), Atom.chr (Char.ofNat 125)]
      (Char.ofNat 125 :: Char.ofNat 125 :: post)).isSome
    simp [matchHere]

/-- The replacement expression of a catalog entry matches `{{ v }}` at the head of a
text when the identity expression matches `v` and `v` has no line feed. -/
theorem matchHere_wrapped (p : unsafePattern) (hp : p ∈ unsafePatterns) (v post : List Char)
    (hv : LF ∉ v) (hm : p.idRegex.MatchString v = true) (n : Nat) :
    (matchHere n p.replaceRegex
      ("\x7b\x7b ".toList ++ v ++ " \x7d\x7d".toList ++ post)).isSome := by
  have hfree : anchorFree p.idRegex := (unsafePatterns_shape p hp).2.2.2
  unfold Regexp.MatchString at hm
  obtain ⟨a, t, rfl, ht⟩ := (search_isSome _ _ _).1 hm
  rw [matchHere_length_irrelevant _ n _ hfree] at ht
  obtain ⟨x, y, rfl, hk⟩ := matchHere_seq n p.idRegex hfree t ht
  simp only [List.mem_append, not_or] at hv
  rw [replaceRegex_shape p hp]
  refine (matchHere_two_chr n LBRACE _ _).2 ⟨Char.ofNat 32 :: (a ++ (x ++ y)
    ++ " \x7d\x7d".toList ++ post), by simp; rfl, ?_⟩
  rw [matchHere_star]
  refine (starGreedy_isSome _ _ _).2 ⟨[Char.ofNat 32], a ++ (x ++ y)
    ++ " \x7d\x7d".toList ++ post, rfl, ?_, ?_⟩
  · intro c hc
    rw [List.mem_singleton.1 hc]
    decide
  · rw [matchHere_lazyStar]
    refine (starLazy_isSome _ _ _).2 ⟨a, (x ++ y) ++ (" \x7d\x7d".toList ++ post), by simp,
      any_of_not_mem hv.1, ?_⟩
    exact hk _ _ (matchHere_closing n y post hv.2.2)

/-- A text with a match is changed by the replacement, and the result holds the name. -/
theorem replaceAll_of_match (b : Char) (re : Regexp) (name : List Char) (hname : b ∉ name)
    (n : Nat) (s : List Char) (am : Bool) (h : (search (Atom.chr b :: re) n s).isSome) :
    name <:+: replaceAll (Atom.chr b :: re) name n s 0 am
      ∧ (replaceAll (Atom.chr b :: re) name n s 0 am).count b < s.count b := by
  induction s generalizing am with
  | nil => simp [search, matchHere] at h
  | cons c cs ih =>
    simp only [search] at h
    simp only [replaceAll]
    cases hm : matchHere n (Atom.chr b :: re) (c :: cs) with
    | none =>
      simp only [hm, Option.isSome_map'] at h
      obtain ⟨h1, h2⟩ := ih false h
      refine ⟨h1.trans (List.suffix_cons c _).isInfix, ?_⟩
      simp only [List.count_cons]
      omega
    | some m =>
      have hc : c = b := by
        by_contra hne
        rw [matchHere_chr_ne n b re c cs hne] at hm
        simp at hm
      cases m with
      | zero => exact absurd hm (matchHere_chr_ne_zero _ _ _ _)
      | succ m =>
        simp only
        refine ⟨(List.prefix_append _ _).isInfix, ?_⟩
        have hrep := replaceAll_rep b re name n cs m true
        have hle : ∀ {s o : List Char}, Rep b name s o → o.count b ≤ s.count b := by
          intro s o hr
          induction hr with
          | nil => exact le_refl _
          | keep x _ ih2 =>
            simp only [List.count_cons]
            omega
          | subst mid _ ih2 =>
            rw [List.count_append, List.count_eq_zero_of_not_mem hname, List.count_append]
            omega
        have h1 := hle hrep
        have h2 : (cs.drop m).count b ≤ cs.count b :=
          (List.drop_sublist m cs).count_le b
        rw [List.count_append, List.count_eq_zero_of_not_mem hname, hc, List.count_cons_self]
        omega

/-! ### Counting the lines of a text -/

theorem Split_length (s : List Char) (sep : Char) :
    (strings.Split s sep).length = s.count sep + 1 := by
  induction s with
  | nil => rfl
  | cons c cs ih =>
    simp only [strings.Split]
    split
    · rename_i hc
      rw [hc, List.length_cons, ih, List.count_cons_self]
    · rename_i hc
      rw [List.count_cons_of_ne (fun e => hc e.symm)]
      split
      · rename_i l ls heq
        rw [heq] at ih
        simpa using ih
      · rename_i heq
        rw [heq] at ih
        simp at ih

theorem count_Join (ls : List (List Char)) (sep : Char) (hne : ls ≠ []) :
    (strings.Join ls [sep]).count sep + 1 = (ls.map (fun l => l.count sep)).sum + ls.length := by
  induction ls with
  | nil => exact absurd rfl hne
  | cons l ls ih =>
    cases ls with
    | nil => simp [strings.Join]
    | cons l2 ls =>
      have ih2 := ih (by simp)
      simp only [strings.Join, List.count_append, List.count_singleton_self, List.map_cons,
        List.sum_cons, List.length_cons] at ih2 ⊢
      omega

theorem sum_count_eq_zero (ls : List (List Char)) (sep : Char) (h : ∀ l ∈ ls, sep ∉ l) :
    (ls.map (fun l => l.count sep)).sum = 0 := by
  induction ls with
  | nil => rfl
  | cons l ls ih =>
    rw [List.map_cons, List.sum_cons, ih (fun x hx => h x (List.mem_cons_of_mem _ hx)),
      List.count_eq_zero_of_not_mem (h l (List.mem_cons_self _ _))]

theorem count_envvarDefinition (k : Nat) (name v : List Char) (hn : LF ∉ name) :
    (List.replicate k (Char.ofNat 32) ++ envvarDefinition name v).count LF = v.count LF := by
  unfold envvarDefinition
  simp only [List.count_append, List.count_eq_zero_of_not_mem (LF_not_mem_replicate k),
    List.count_eq_zero_of_not_mem hn]
  have h1 : (": $\x7b\x7b ".toList).count LF = 0 := by decide
  have h2 : (" \x7d\x7d".toList).count LF = 0 := by decide
  omega

/-! ### The extent of a match of the replacement expression -/

/-- Every identity expression of the catalog is a literal, or two literals with `.*?`
between them; the literals hold no `}` and the first begins with `g`. -/
theorem idRegex_shape : ∀ p ∈ unsafePatterns,
    (p.idRegex = litChars (headChars p.idRegex)
        ∨ p.idRegex = litChars (headChars p.idRegex)
            ++ Atom.lazyStar Cls.any :: litChars (tailChars p.idRegex))
      ∧ RBRACE ∉ headChars p.idRegex ∧ RBRACE ∉ tailChars p.idRegex
      ∧ (headChars p.idRegex).head? = some (Char.ofNat 103) := by
  decide

theorem matchHere_litChars_value (n : Nat) (re : Regexp) (w t : List Char) :
    matchHere n (litChars w ++ re) (w ++ t) = (matchHere n re t).map (· + w.length) := by
  induction w with
  | nil => simp [litChars]
  | cons c w ih =>
    have e : litChars (c :: w) ++ re = Atom.chr c :: (litChars w ++ re) := rfl
    rw [e, List.cons_append]
    simp only [matchHere, if_true, List.length_cons]
    rw [ih]
    cases matchHere n re t with
    | none => rfl
    | some r => simp only [Option.map_some', Option.some.injEq]; omega

theorem starGreedy_max (p : Char → Bool) (k : List Char → Option Nat) (u v : List Char)
    (r : Nat) (hu : ∀ c ∈ u, p c = true) (hv : ∀ x xs, v = x :: xs → p x = false)
    (hk : k v = some r) : starGreedy p k (u ++ v) = some (u.length + r) := by
  induction u with
  | nil =>
    cases v with
    | nil => simpa [starGreedy] using hk
    | cons x xs => simpa [starGreedy, hv x xs rfl] using hk
  | cons c u ih =>
    have hc := hu c (List.mem_cons_self _ _)
    rw [List.cons_append]
    simp only [starGreedy, hc, if_true,
      ih (fun x hx => hu x (List.mem_cons_of_mem _ hx)), List.length_cons]
    congr 1
    omega

theorem starGreedy_value (p : Char → Bool) (k : List Char → Option Nat) (s : List Char)
    (r : Nat) (h : starGreedy p k s = some r) :
    ∃ u v r2, s = u ++ v ∧ (∀ c ∈ u, p c = true) ∧ k v = some r2 ∧ r = u.length + r2 := by
  induction s generalizing r with
  | nil => exact ⟨[], [], r, rfl, by simp, by simpa [starGreedy] using h, by simp⟩
  | cons x xs ih =>
    simp only [starGreedy] at h
    by_cases hp : p x = true
    · simp only [hp, if_true] at h
      cases hs : starGreedy p k xs with
      | some m =>
        simp only [hs, Option.some.injEq] at h
        obtain ⟨u, v, r2, rfl, hu, hk, hm⟩ := ih m hs
        refine ⟨x :: u, v, r2, rfl, ?_, hk, by simp; omega⟩
        intro c hc
        rcases List.mem_cons.1 hc with rfl | hc
        · exact hp
        · exact hu c hc
      | none =>
        simp only [hs] at h
        exact ⟨[], x :: xs, r, rfl, by simp, h, by simp⟩
    · simp only [hp] at h
      exact ⟨[], x :: xs, r, rfl, by simp, by simpa using h, by simp⟩

theorem RBRACE_not_space : Cls.space.test RBRACE = false := by decide

theorem suffix_no_closing {m m2 : List Char} (hs : m2 <:+ m)
    (h : ¬ ([RBRACE, RBRACE] <:+: m ++ [RBRACE])) :
    ¬ ([RBRACE, RBRACE] <:+: m2 ++ [RBRACE]) := by
  intro hc
  obtain ⟨a, rfl⟩ := hs
  exact h (hc.trans ⟨a, [], by simp⟩)

/-- The first `}}` of a text is where a run of whitespace followed by `}}` can end. -/
theorem closing_position (m post u v : List Char)
    (hm : ¬ ([RBRACE, RBRACE] <:+: m ++ [RBRACE]))
    (hu : ∀ c ∈ u, Cls.space.test c = true)
    (h : m ++ RBRACE :: RBRACE :: post = u ++ RBRACE :: RBRACE :: v) :
    u.length = m.length := by
  rcases List.append_eq_append_iff.1 h with ⟨a, hua, hpa⟩ | ⟨c, hmc, hvc⟩
  · cases a with
    | nil => simp [hua]
    | cons x a =>
      simp only [List.cons_append, List.cons.injEq] at hpa
      have hx : x ∈ u := by rw [hua]; simp
      have := hu x hx
      rw [← hpa.1, RBRACE_not_space] at this
      exact absurd this Bool.false_ne_true
  · cases c with
    | nil => simp [hmc]
    | cons x c =>
      simp only [List.cons_append, List.cons.injEq] at hvc
      exfalso
      apply hm
      cases c with
      | nil =>
        refine ⟨u, [], ?_⟩
        rw [hmc, ← hvc.1]
        simp
      | cons y c =>
        simp only [List.cons_append, List.cons.injEq] at hvc
        refine ⟨u, c ++ [RBRACE], ?_⟩
        rw [hmc, ← hvc.1, ← hvc.2.1]
        simp

theorem matchHere_two_chr_value (n : Nat) (b : Char) (v : List Char) (r : Nat)
    (h : matchHere n [Atom.chr b, Atom.chr b] v = some r) :
    ∃ v2, v = b :: b :: v2 ∧ r = 2 := by
  have hs : (matchHere n (Atom.chr b :: Atom.chr b :: []) v).isSome := by simp [h]
  obtain ⟨t, rfl, -⟩ := (matchHere_two_chr n b [] v).1 hs
  refine ⟨t, rfl, ?_⟩
  simp [matchHere] at h
  omega

/-- The end of the replacement expression, `.*?\s*}}`, matches up to the first `}}` of a
text that has no line feed before it. -/
theorem closing_value (n : Nat) (m post : List Char) (hLF : LF ∉ m)
    (hm : ¬ ([RBRACE, RBRACE] <:+: m ++ [RBRACE])) :
    matchHere n [Atom.lazyStar Cls.any, Atom.star Cls.space, Atom.chr RBRACE, Atom.chr RBRACE]
      (m ++ RBRACE :: RBRACE :: post) = some (m.length + 2) := by
  rw [matchHere_lazyStar]
  have hK : ∀ (m2 : List Char), ¬ ([RBRACE, RBRACE] <:+: m2 ++ [RBRACE]) → ∀ r,
      matchHere n [Atom.star Cls.space, Atom.chr RBRACE, Atom.chr RBRACE]
        (m2 ++ RBRACE :: RBRACE :: post) = some r → r = m2.length + 2 := by
    intro m2 hm2 r hr
    rw [matchHere_star] at hr
    obtain ⟨u, v, r2, huv, hu, hk, hr2⟩ := starGreedy_value _ _ _ _ hr
    obtain ⟨v2, rfl, rfl⟩ := matchHere_two_chr_value n RBRACE v r2 hk
    have := closing_position m2 post u v2 hm2 hu huv
    omega
  induction m with
  | nil =>
    have h0 : matchHere n [Atom.star Cls.space, Atom.chr RBRACE, Atom.chr RBRACE]
        (RBRACE :: RBRACE :: post) = some 2 := by
      simp [matchHere, starGreedy, RBRACE_not_space]
    simp only [List.nil_append, starLazy, h0, List.length_nil]
  | cons c m ih =>
    simp only [List.mem_cons, not_or] at hLF
    have hm2 := suffix_no_closing (List.suffix_cons c m) hm
    rw [List.cons_append]
    simp only [starLazy]
    cases hk : matchHere n [Atom.star Cls.space, Atom.chr RBRACE, Atom.chr RBRACE]
        (c :: (m ++ RBRACE :: RBRACE :: post)) with
    | some r =>
      have := hK (c :: m) hm r hk
      simp only [this]
    | none =>
      have hc : Cls.any.test c = true := by
        simp only [Cls.test, bne_iff_ne, ne_eq]
        exact fun e => hLF.1 e.symm
      simp only [hc, if_true, ih hLF.2 hm2, Option.map_some', List.length_cons]

theorem anchorFree_litChars (w : List Char) : anchorFree (litChars w) := by
  unfold anchorFree litChars
  simp

theorem anchorFree_append {re1 re2 : Regexp} (h1 : anchorFree re1) (h2 : anchorFree re2) :
    anchorFree (re1 ++ re2) := by
  unfold anchorFree at h1 h2 ⊢
  simp only [List.mem_append, not_or]
  exact ⟨⟨h1.1, h2.1⟩, ⟨h1.2, h2.2⟩⟩

/-- A literal without `}` that begins a text `m ++ "}}" ++ post` lies inside `m`. -/
theorem literal_inside (w m post t : List Char) (hw : RBRACE ∉ w)
    (h : m ++ RBRACE :: RBRACE :: post = w ++ t) :
    ∃ m3, m = w ++ m3 ∧ t = m3 ++ RBRACE :: RBRACE :: post := by
  rcases List.append_eq_append_iff.1 h with ⟨a, hwa, hpa⟩ | ⟨c, hmc, htc⟩
  · cases a with
    | nil =>
      refine ⟨[], by simpa using hwa.symm, ?_⟩
      simpa using hpa.symm
    | cons x a =>
      simp only [List.cons_append, List.cons.injEq] at hpa
      exact absurd (by rw [hwa, hpa.1]; simp) hw
  · exact ⟨c, hmc, htc⟩

/-- A literal followed by `.*?\s*}}`: the match ends at the first `}}`. -/
theorem literal_closing_value (n : Nat) (w m post : List Char) (r : Nat) (hw : RBRACE ∉ w)
    (hLF : LF ∉ m) (hm : ¬ ([RBRACE, RBRACE] <:+: m ++ [RBRACE]))
    (h : matchHere n (litChars w ++ [Atom.lazyStar Cls.any, Atom.star Cls.space,
        Atom.chr RBRACE, Atom.chr RBRACE]) (m ++ RBRACE :: RBRACE :: post) = some r) :
    r = m.length + 2 := by
  have hs : (matchHere n (litChars w ++ [Atom.lazyStar Cls.any, Atom.star Cls.space,
      Atom.chr RBRACE, Atom.chr RBRACE]) (m ++ RBRACE :: RBRACE :: post)).isSome := by
    simp [h]
  obtain ⟨t, ht, -⟩ := (matchHere_litChars_isSome _ _ _ _).1 hs
  obtain ⟨m3, rfl, rfl⟩ := literal_inside w m post t hw ht
  rw [List.append_assoc, matchHere_litChars_value,
    closing_value n m3 post (fun hx => hLF (List.mem_append_right _ hx))
      (suffix_no_closing (List.suffix_append w m3) hm)] at h
  simp only [Option.map_some', Option.some.injEq] at h
  simp only [List.length_append]
  omega

/-- An expression that matches at the head of `m` matches, continued by `.*?\s*}}`, at
the head of `m ++ "}}" ++ post`. -/
theorem closing_isSome (n : Nat) (re : Regexp) (hre : anchorFree re) (m post : List Char)
    (hLF : LF ∉ m) (hm : ¬ ([RBRACE, RBRACE] <:+: m ++ [RBRACE]))
    (h : (matchHere n re m).isSome) :
    (matchHere n (re ++ [Atom.lazyStar Cls.any, Atom.star Cls.space,
        Atom.chr RBRACE, Atom.chr RBRACE]) (m ++ RBRACE :: RBRACE :: post)).isSome := by
  obtain ⟨x, y, rfl, hk⟩ := matchHere_seq n re hre m h
  refine hk _ _ ?_
  rw [closing_value n y post (fun hx => hLF (List.mem_append_right _ hx))
    (suffix_no_closing (List.suffix_append x y) hm)]
  rfl

/-- A non-greedy `.*?` in front of an expression followed by `.*?\s*}}`: when the
expression occurs inside `m` and each of its matches ends at the first `}}`, so does
the match found. -/
theorem lazy_closing_value (n : Nat) (re : Regexp) (hre : anchorFree re) (post : List Char)
    (hK : ∀ (m2 : List Char) (r : Nat), LF ∉ m2 → ¬ ([RBRACE, RBRACE] <:+: m2 ++ [RBRACE]) →
      (∃ a t, m2 = a ++ t ∧ (matchHere n re t).isSome) →
      matchHere n (re ++ [Atom.lazyStar Cls.any, Atom.star Cls.space,
        Atom.chr RBRACE, Atom.chr RBRACE]) (m2 ++ RBRACE :: RBRACE :: post) = some r →
      r = m2.length + 2)
    (m : List Char) (hLF : LF ∉ m) (hm : ¬ ([RBRACE, RBRACE] <:+: m ++ [RBRACE]))
    (hocc : ∃ a t, m = a ++ t ∧ (matchHere n re t).isSome) :
    starLazy Cls.any.test (matchHere n (re ++ [Atom.lazyStar Cls.any, Atom.star Cls.space,
        Atom.chr RBRACE, Atom.chr RBRACE])) (m ++ RBRACE :: RBRACE :: post)
      = some (m.length + 2) := by
  induction m with
  | nil =>
    obtain ⟨a, t, hat, ht⟩ := hocc
    obtain ⟨rfl, rfl⟩ := List.append_eq_nil.1 hat.symm
    have hs := closing_isSome n re hre [] post hLF hm ht
    cases hk : matchHere n (re ++ [Atom.lazyStar Cls.any, Atom.star Cls.space,
        Atom.chr RBRACE, Atom.chr RBRACE]) ([] ++ RBRACE :: RBRACE :: post) with
    | none =>
      rw [hk] at hs
      simp at hs
    | some r =>
      have hr := hK [] r hLF hm ⟨[], [], rfl, ht⟩ hk
      simp only [List.nil_append] at hk ⊢
      simp only [starLazy, hk, hr]
  | cons c m ih =>
    simp only [List.mem_cons, not_or] at hLF
    have hLF2 : LF ∉ c :: m := by
      simp only [List.mem_cons, not_or]
      exact hLF
    rw [List.cons_append]
    simp only [starLazy]
    cases hk : matchHere n (re ++ [Atom.lazyStar Cls.any, Atom.star Cls.space,
        Atom.chr RBRACE, Atom.chr RBRACE]) (c :: (m ++ RBRACE :: RBRACE :: post)) with
    | some r =>
      have hr := hK (c :: m) r hLF2 hm hocc hk
      simp only [hr]
    | none =>
      have hm2 := suffix_no_closing (List.suffix_cons c m) hm
      have hocc2 : ∃ a t, m = a ++ t ∧ (matchHere n re t).isSome := by
        obtain ⟨a, t, hat, ht⟩ := hocc
        cases a with
        | nil =>
          simp only [List.nil_append] at hat
          subst hat
          have hs := closing_isSome n re hre (c :: m) post hLF2 hm ht
          rw [List.cons_append, hk] at hs
          simp at hs
        | cons x a =>
          simp only [List.cons_append, List.cons.injEq] at hat
          exact ⟨a, t, hat.2, ht⟩
      have hc : Cls.any.test c = true := by
        simp only [Cls.test, bne_iff_ne, ne_eq]
        exact fun e => hLF.1 e.symm
      simp only [hc, if_true, ih hLF.2 hm2 hocc2, Option.map_some', List.length_cons]

/-- An identity expression of the catalog's shapes followed by `.*?\s*}}`: when the
expression occurs inside `m`, a match at the head of `m ++ "}}" ++ post` ends at the
first `}}`. -/
theorem shape_closing_value (n : Nat) (re : Regexp) (A B : List Char)
    (hshape : re = litChars A ∨ re = litChars A ++ Atom.lazyStar Cls.any :: litChars B)
    (hA : RBRACE ∉ A) (hB : RBRACE ∉ B) (post m : List Char) (r : Nat)
    (hLF : LF ∉ m) (hm : ¬ ([RBRACE, RBRACE] <:+: m ++ [RBRACE]))
    (hocc : ∃ a t, m = a ++ t ∧ (matchHere n re t).isSome)
    (h : matchHere n (re ++ [Atom.lazyStar Cls.any, Atom.star Cls.space,
        Atom.chr RBRACE, Atom.chr RBRACE]) (m ++ RBRACE :: RBRACE :: post) = some r) :
    r = m.length + 2 := by
  rcases hshape with rfl | rfl
  · exact literal_closing_value n A m post r hA hLF hm h
  · rw [List.append_assoc, List.cons_append] at h
    have hs : (matchHere n (litChars A ++ Atom.lazyStar Cls.any :: (litChars B
        ++ [Atom.lazyStar Cls.any, Atom.star Cls.space, Atom.chr RBRACE, Atom.chr RBRACE]))
        (m ++ RBRACE :: RBRACE :: post)).isSome := by
      simp [h]
    obtain ⟨t, ht, -⟩ := (matchHere_litChars_isSome _ _ _ _).1 hs
    obtain ⟨m3, rfl, rfl⟩ := literal_inside A m post t hA ht
    have hLF3 : LF ∉ m3 := fun hx => hLF (List.mem_append_right _ hx)
    have hm3 := suffix_no_closing (List.suffix_append A m3) hm
    have hoccB : ∃ a t, m3 = a ++ t ∧ (matchHere n (litChars B) t).isSome := by
      obtain ⟨a, t0, hat, ht0⟩ := hocc
      obtain ⟨t1, rfl, ht1⟩ := (matchHere_litChars_isSome _ _ _ _).1 ht0
      rw [matchHere_lazyStar] at ht1
      obtain ⟨z, t2, rfl, -, ht2⟩ := (starLazy_isSome _ _ _).1 ht1
      refine ⟨(a ++ A ++ z).drop A.length, t2, ?_, ht2⟩
      have h1 : m3 = (A ++ m3).drop A.length := by simp
      rw [h1, hat]
      have h2 : a ++ (A ++ (z ++ t2)) = (a ++ A ++ z) ++ t2 := by simp
      rw [h2, List.drop_append_of_le_length (by simp; omega)]
    rw [List.append_assoc, matchHere_litChars_value, matchHere_lazyStar,
      lazy_closing_value n (litChars B) (anchorFree_litChars B) post
        (fun m2 r2 h1 h2 _ h4 => literal_closing_value n B m2 post r2 hB h1 h2 h4)
        m3 hLF3 hm3 hoccB] at h
    simp only [Option.map_some', Option.some.injEq] at h
    simp only [List.length_append]
    omega

theorem dropWhile_append_of_not {p : Char → Bool} (a : List Char) (c : Char) (t : List Char)
    (hc : p c = false) : ∃ a2, (a ++ c :: t).dropWhile p = a2 ++ c :: t := by
  induction a with
  | nil => exact ⟨[], by simp [List.dropWhile_cons, hc]⟩
  | cons x a ih =>
    rw [List.cons_append, List.dropWhile_cons]
    split
    · exact ih
    · exact ⟨x :: a, rfl⟩

theorem head_dropWhile_not (p : Char → Bool) (m : List Char) (x : Char) (xs : List Char)
    (h : m.dropWhile p = x :: xs) : p x = false := by
  induction m with
  | nil => simp at h
  | cons c m ih =>
    rw [List.dropWhile_cons] at h
    split at h
    · exact ih h
    · rename_i hc
      simp only [List.cons.injEq] at h
      rw [← h.1]
      simpa using hc

/-- The extent of a match of the replacement expression: at `{{ m }}`, where `m` holds
no line feed, no `}}` and a match of the identity expression, the match found is
exactly `{{ m }}`. -/
theorem matchHere_occurrence (p : unsafePattern) (hp : p ∈ unsafePatterns) (n : Nat)
    (m post : List Char) (hLF : LF ∉ m) (hm : ¬ ([RBRACE, RBRACE] <:+: m ++ [RBRACE]))
    (hfrag : p.idRegex.MatchString m = true) :
    matchHere n p.replaceRegex (LBRACE :: LBRACE :: (m ++ RBRACE :: RBRACE :: post))
      = some (m.length + 4) := by
  have hfree : anchorFree p.idRegex := (unsafePatterns_shape p hp).2.2.2
  obtain ⟨hshape, hA, hB, hg⟩ := idRegex_shape p hp
  have hocc : ∃ a t, m = a ++ t ∧ (matchHere n p.idRegex t).isSome := by
    unfold Regexp.MatchString at hfrag
    obtain ⟨a, t, hat, ht⟩ := (search_isSome _ _ _).1 hfrag
    rw [matchHere_length_irrelevant _ n _ hfree] at ht
    exact ⟨a, t, hat, ht⟩
  -- the occurrence begins with `g`, which is no whitespace
  have hocc2 : ∃ a t, m.dropWhile Cls.space.test = a ++ t
      ∧ (matchHere n p.idRegex t).isSome := by
    obtain ⟨a, t, rfl, ht⟩ := hocc
    have hhead : ∃ w, headChars p.idRegex = Char.ofNat 103 :: w := by
      cases hh : headChars p.idRegex with
      | nil => simp [hh] at hg
      | cons x w =>
        simp only [hh, List.head?_cons, Option.some.injEq] at hg
        exact ⟨w, by rw [hg]⟩
    obtain ⟨w, hw⟩ := hhead
    have ht0 : ∃ t1, t = Char.ofNat 103 :: t1 := by
      rcases hshape with hs | hs
      · rw [hs, hw] at ht
        have := (matchHere_litChars_isSome n [] (Char.ofNat 103 :: w) t).1 (by simpa using ht)
        obtain ⟨t1, rfl, -⟩ := this
        exact ⟨w ++ t1, rfl⟩
      · rw [hs, hw] at ht
        obtain ⟨t1, rfl, -⟩ := (matchHere_litChars_isSome n _ (Char.ofNat 103 :: w) t).1 ht
        exact ⟨w ++ t1, rfl⟩
    obtain ⟨t1, rfl⟩ := ht0
    obtain ⟨a2, ha2⟩ := dropWhile_append_of_not (p := Cls.space.test) a (Char.ofNat 103) t1
      (by decide)
    exact ⟨a2, _, ha2, ht⟩
  have hsplit : m = m.takeWhile Cls.space.test ++ m.dropWhile Cls.space.test :=
    (List.takeWhile_append_dropWhile _ m).symm
  have hsuf : m.dropWhile Cls.space.test <:+ m := List.dropWhile_suffix _
  have hLF2 : LF ∉ m.dropWhile Cls.space.test := fun hx => hLF (hsuf.subset hx)
  have hm2 := suffix_no_closing hsuf hm
  have hlazy := lazy_closing_value n p.idRegex hfree post
    (fun m2 r2 h1 h2 h3 h4 =>
      shape_closing_value n p.idRegex _ _ hshape hA hB post m2 r2 h1 h2 h3 h4)
    (m.dropWhile Cls.space.test) hLF2 hm2 hocc2
  have hgreedy := starGreedy_max Cls.space.test
    (starLazy Cls.any.test (matchHere n (p.idRegex ++ [Atom.lazyStar Cls.any,
      Atom.star Cls.space, Atom.chr RBRACE, Atom.chr RBRACE])))
    (m.takeWhile Cls.space.test) (m.dropWhile Cls.space.test ++ RBRACE :: RBRACE :: post)
    _ (fun c hc => (List.mem_takeWhile_imp hc)) (by
      intro x xs hx
      cases hd : m.dropWhile Cls.space.test with
      | nil =>
        rw [hd] at hx
        simp only [List.nil_append, List.cons.injEq] at hx
        rw [← hx.1]
        exact RBRACE_not_space
      | cons y ys =>
        rw [hd] at hx
        simp only [List.cons_append, List.cons.injEq] at hx
        rw [← hx.1]
        exact head_dropWhile_not _ m y ys hd) hlazy
  rw [← List.append_assoc, ← hsplit] at hgreedy
  have hlen : (m.takeWhile Cls.space.test).length + ((m.dropWhile Cls.space.test).length + 2)
      = m.length + 2 := by
    have := congrArg List.length hsplit
    simp only [List.length_append] at this
    omega
  rw [hlen] at hgreedy
  rw [replaceRegex_shape p hp]
  simp only [matchHere, if_true]
  have e : RBRACE = Char.ofNat 125 := rfl
  rw [← e, hgreedy]
  rfl

/-- Text without `bb` in front of a character other than `b` is copied. -/
theorem replaceAll_copy_pairs (b : Char) (re : Regexp) (name : List Char) (n : Nat)
    (pre : List Char) (x : Char) (t : List Char) (am : Bool)
    (hpre : ¬ ([b, b] <:+: pre)) (hx : x ≠ b) :
    replaceAll (Atom.chr b :: Atom.chr b :: re) name n (pre ++ x :: t) 0 am
      = pre ++ x :: replaceAll (Atom.chr b :: Atom.chr b :: re) name n t 0 false := by
  induction pre generalizing am with
  | nil =>
    simp only [List.nil_append, replaceAll, matchHere_chr_ne n b _ x t hx]
  | cons c pre ih =>
    have hpre2 : ¬ ([b, b] <:+: pre) := fun h => hpre (h.trans (List.suffix_cons c pre).isInfix)
    have hnone : matchHere n (Atom.chr b :: Atom.chr b :: re) (c :: (pre ++ x :: t)) = none := by
      by_cases hc : c = b
      · subst hc
        cases pre with
        | nil => simp [matchHere, hx]
        | cons d pre =>
          have hd : d ≠ c := by
            rintro rfl
            exact hpre ⟨[], pre, by simp⟩
          simp [matchHere, hd]
      · exact matchHere_chr_ne n b _ c _ hc
    rw [List.cons_append]
    simp only [replaceAll, hnone, ih false hpre2]
    rfl

/-- One occurrence `${{ m }}` with no `{{` before it: the part `{{ m }}` is replaced by the
name and the `$` stays; the text behind is replaced in the same way. -/
theorem ReplaceAllString_occurrence (p : unsafePattern) (hp : p ∈ unsafePatterns)
    (pre m post : List Char) (hpre : ¬ ([LBRACE, LBRACE] <:+: pre)) (hLF : LF ∉ m)
    (hm : ¬ ([RBRACE, RBRACE] <:+: m ++ [RBRACE]))
    (hfrag : p.idRegex.MatchString m = true) :
    p.replaceRegex.ReplaceAllString
        (pre ++ Char.ofNat 36 :: LBRACE :: LBRACE :: (m ++ RBRACE :: RBRACE :: post))
        p.envvarName
      = pre ++ Char.ofNat 36
          :: (p.envvarName ++ p.replaceRegex.ReplaceAllString post p.envvarName) := by
  have hshape := unsafePatterns_shape p hp
  have hR := replaceRegex_shape p hp
  have hfree : anchorFree p.replaceRegex := by
    rw [hR]
    unfold anchorFree
    have h1 := hshape.2.2.2.1
    have h2 := hshape.2.2.2.2
    simp only [List.mem_cons, List.mem_append, List.mem_singleton, not_or]
    refine ⟨⟨by decide, by decide, by decide, by decide, h1, by decide⟩,
      ⟨by decide, by decide, by decide, by decide, h2, by decide⟩⟩
  unfold Regexp.ReplaceAllString
  generalize (pre ++ Char.ofNat 36 :: LBRACE :: LBRACE
    :: (m ++ RBRACE :: RBRACE :: post)).length = n
  have hocc := matchHere_occurrence p hp n m post hLF hm hfrag
  have hirr : replaceAll p.replaceRegex p.envvarName n post 0 true
      = replaceAll p.replaceRegex p.envvarName post.length post 0 false := by
    have := replaceAll_irrelevant LBRACE _ (hR ▸ hfree) p.envvarName n post.length post 0
      true false
    rw [← hR] at this
    exact this
  have hcopy := replaceAll_copy_pairs LBRACE
    (Atom.star Cls.space :: Atom.lazyStar Cls.any
      :: (p.idRegex ++ [Atom.lazyStar Cls.any, Atom.star Cls.space,
            Atom.chr (Char.ofNat 125), Atom.chr (Char.ofNat 125)]))
    p.envvarName n pre (Char.ofNat 36)
    (LBRACE :: LBRACE :: (m ++ RBRACE :: RBRACE :: post)) false hpre (by decide)
  rw [← hR] at hcopy
  rw [hcopy]
  congr 2
  simp only [replaceAll, hocc]
  congr 1
  have hskip : replaceAll p.replaceRegex p.envvarName n
      ((m ++ [RBRACE, RBRACE]) ++ post) (m ++ [RBRACE, RBRACE]).length true
      = replaceAll p.replaceRegex p.envvarName n post 0 true := by
    cases hw : m ++ [RBRACE, RBRACE] with
    | nil => simp at hw
    | cons x w => exact replaceAll_skip _ _ n w post x true
  have e1 : (m ++ [RBRACE, RBRACE]).length = m.length + 2 := by simp
  have e2 : (m ++ [RBRACE, RBRACE]) ++ post = m ++ RBRACE :: RBRACE :: post := by simp
  rw [e1, e2] at hskip
  rw [hskip, hirr]

/-- Text without `bb` is copied as it is. -/
theorem replaceAll_no_pair (b : Char) (re : Regexp) (name : List Char) (n : Nat)
    (s : List Char) (am : Bool) (hs : ¬ ([b, b] <:+: s)) :
    replaceAll (Atom.chr b :: Atom.chr b :: re) name n s 0 am = s := by
  induction s generalizing am with
  | nil => simp [replaceAll, matchHere]
  | cons c s ih =>
    have hs2 : ¬ ([b, b] <:+: s) := fun h => hs (h.trans (List.suffix_cons c s).isInfix)
    have hnone : matchHere n (Atom.chr b :: Atom.chr b :: re) (c :: s) = none := by
      by_cases hc : c = b
      · subst hc
        cases s with
        | nil => simp [matchHere]
        | cons d s =>
          have hd : d ≠ c := by
            rintro rfl
            exact hs ⟨[], s, by simp⟩
          simp [matchHere, hd]
      · exact matchHere_chr_ne n b _ c _ hc
    simp only [replaceAll, hnone, ih false hs2]

/-- A text without `{{` is left as it is by every catalog entry. -/
theorem ReplaceAllString_no_opening (p : unsafePattern) (hp : p ∈ unsafePatterns)
    (s : List Char) (hs : ¬ ([LBRACE, LBRACE] <:+: s)) :
    p.replaceRegex.ReplaceAllString s p.envvarName = s := by
  unfold Regexp.ReplaceAllString
  rw [replaceRegex_shape p hp]
  exact replaceAll_no_pair LBRACE _ _ _ s false hs

/-- Every occurrence of a line is replaced. -/
theorem ReplaceAllString_occurrences (p : unsafePattern) (hp : p ∈ unsafePatterns)
    (occs : List (List Char × List Char)) (tail : List Char)
    (hocc : ∀ o ∈ occs, ¬ ([LBRACE, LBRACE] <:+: o.1) ∧ LF ∉ o.2
      ∧ ¬ ([RBRACE, RBRACE] <:+: o.2 ++ [RBRACE]) ∧ p.idRegex.MatchString o.2 = true) :
    p.replaceRegex.ReplaceAllString (wrapOccurrences occs tail) p.envvarName
      = substOccurrences p.envvarName occs
          (p.replaceRegex.ReplaceAllString tail p.envvarName) := by
  induction occs with
  | nil => rfl
  | cons o occs ih =>
    obtain ⟨pre, m⟩ := o
    have h := hocc (pre, m) (List.mem_cons_self _ _)
    have ih2 := ih (fun o ho => hocc o (List.mem_cons_of_mem _ ho))
    have e : wrapOccurrences ((pre, m) :: occs) tail
        = pre ++ Char.ofNat 36 :: LBRACE :: LBRACE
            :: (m ++ RBRACE :: RBRACE :: wrapOccurrences occs tail) := by
      simp only [wrapOccurrences, List.append_assoc]
      rfl
    rw [e, ReplaceAllString_occurrence p hp pre m _ h.1 h.2.1 h.2.2.1 h.2.2.2, ih2]
    simp only [substOccurrences, List.append_assoc]
    rfl

/-! ## The claims -/

/-- C1: on the six-line example with the finding `" github.event.comment.body "` at line 6,
`patchWorkflow` succeeds; the patched text is the original with the three lines `env:`,
`  COMMENT_BODY: ${{ github.event.comment.body }}` and an empty line inserted directly
above `jobs:` and with the expression of the run line replaced by `COMMENT_BODY`, every
other line unchanged and in order; the run line no longer contains the expression. -/
theorem patchWorkflow_example :
    patchWorkflow exampleFinding (strings.Join exampleWorkflow [LF])
        = some (strings.Join examplePatched [LF], true)
      ∧ examplePatched
        = exampleWorkflow.take 2
          ++ ["env:".toList, "  COMMENT_BODY: $\x7b\x7b github.event.comment.body \x7d\x7d".toList, []]
          ++ (exampleWorkflow.drop 2).take 3 ++ ["      - run: echo \"$COMMENT_BODY\"".toList]
      ∧ ¬ ("github.event.comment.body".toList <:+: "      - run: echo \"$COMMENT_BODY\"".toList) := by
  refine ⟨by decide, by decide, by decide⟩

/-- C2 (the code fails it): with the recognised snippet of the example and a
`lineOffset` of 0 or of 7 on the six-line example, `lines[runIndex]` is out of range
and `GeneratePatch` stops with a run-time panic instead of returning a string. -/
theorem GeneratePatch_offset_out_of_range
    (getDiff : List Char → List Char → List Char → List Char) :
    GeneratePatch getDiff { exampleFinding with Offset := 0 } (strings.Join exampleWorkflow [LF])
        = none
      ∧ GeneratePatch getDiff { exampleFinding with Offset := 7 }
          (strings.Join exampleWorkflow [LF]) = none := by
  have h0 : patchWorkflow { exampleFinding with Offset := 0 } (strings.Join exampleWorkflow [LF])
      = none := by decide
  have h7 : patchWorkflow { exampleFinding with Offset := 7 } (strings.Join exampleWorkflow [LF])
      = none := by decide
  unfold GeneratePatch
  simp only [h0, h7, and_self]

/-- C3: when the identity expression of no catalog entry matches the snippet, then for
every document and every `lineOffset`, in range or not, `patchWorkflow` reports failure
with an empty text and `GeneratePatch` returns the empty string (so the document is
neither indexed, which could panic, nor edited). -/
theorem patchWorkflow_unrecognised_snippet
    (getDiff : List Char → List Char → List Char → List Char) (f : File) (content : List Char)
    (h : ∀ p ∈ unsafePatterns, p.idRegex.MatchString f.Snippet = false) :
    patchWorkflow f content = some ([], false) ∧ GeneratePatch getDiff f content = some [] := by
  have hnone : getUnsafePattern (strings.Trim f.Snippet " ".toList) = none := by
    unfold getUnsafePattern
    rw [List.find?_eq_none]
    intro p hp hm
    have hfree : anchorFree p.idRegex := (unsafePatterns_shape p hp).2.2.2
    have := MatchString_of_infix p.idRegex hfree _ _ (Trim_part f.Snippet " ".toList) hm
    rw [h p hp] at this
    exact Bool.false_ne_true this
  have hp : patchWorkflow f content = some ([], false) := by
    unfold patchWorkflow
    simp only [hnone]
  exact ⟨hp, GeneratePatch_of_fail getDiff f content hp⟩

/-- The unrecognised expression `github.event.repository.name`, with a `lineOffset`
outside the example. -/
theorem patchWorkflow_unrecognised_snippet_witness :
    patchWorkflow { Path := [], Snippet := "github.event.repository.name".toList, Offset := 40 }
        (strings.Join exampleWorkflow [LF]) = some ([], false)
      ∧ GeneratePatch (fun _ _ patched => patched)
        { Path := [], Snippet := "github.event.repository.name".toList, Offset := 40 }
        (strings.Join exampleWorkflow [LF]) = some [] :=
  patchWorkflow_unrecognised_snippet _ _ _ (by decide)

/-- C4: when no line of the document begins with whitespace followed by `on:`, then for
every finding whose `lineOffset` lies within the document, recognised or not,
`patchWorkflow` fails with an empty text and `GeneratePatch` returns the empty string. -/
theorem patchWorkflow_no_anchor
    (getDiff : List Char → List Char → List Char → List Char) (f : File) (content : List Char)
    (hanchor : ∀ line ∈ strings.Split content LF, ∀ ws rest : List Char,
      (∀ c ∈ ws, Cls.space.test c = true) → line ≠ ws ++ ("on:".toList ++ rest))
    (h1 : 1 ≤ f.Offset) (h2 : f.Offset ≤ (strings.Split content LF).length) :
    patchWorkflow f content = some ([], false) ∧ GeneratePatch getDiff f content = some [] := by
  have hglobal : findGlobalIndentation (strings.Split content LF) = (-1, false) := by
    unfold findGlobalIndentation
    have : (strings.Split content LF).find? (fun line =>
        Regexp.MatchString ([Atom.bol, Atom.star Cls.space] ++ lit "on:") line) = none := by
      rw [List.find?_eq_none]
      intro line hl hm
      obtain ⟨ws, rest, rfl, hws⟩ := (MatchString_anchor line).1 hm
      exact hanchor _ hl ws rest hws rfl
    simp only [this]
  have hp : patchWorkflow f content = some ([], false) := by
    cases hrec : getUnsafePattern (strings.Trim f.Snippet " ".toList) with
    | none =>
      unfold patchWorkflow
      simp only [hrec]
    | some p =>
      have hshape := unsafePatterns_shape p (getUnsafePattern_mem hrec)
      refine patchWorkflow_fail f content p hrec h1 h2 (fun out hout => ?_)
      refine addEnvvarsToGlobalEnv_no_anchor out p _ ?_
      rw [findGlobalIndentation_rep hout hshape.1 hshape.2.1, hglobal]
  exact ⟨hp, GeneratePatch_of_fail getDiff f content hp⟩

/-- A recognised finding at line 4 of a fragment without the `on:` key. -/
theorem patchWorkflow_no_anchor_witness :
    patchWorkflow { Path := [], Snippet := " github.event.comment.body ".toList, Offset := 4 }
        (strings.Join fragmentWithoutAnchor [LF]) = some ([], false)
      ∧ GeneratePatch (fun _ _ patched => patched)
        { Path := [], Snippet := " github.event.comment.body ".toList, Offset := 4 }
        (strings.Join fragmentWithoutAnchor [LF]) = some [] :=
  patchWorkflow_no_anchor _ _ _
    (fun line hl ws rest hws heq => by
      have hall : ∀ l ∈ strings.Split (strings.Join fragmentWithoutAnchor [LF]) LF,
          Regexp.MatchString ([Atom.bol, Atom.star Cls.space] ++ lit "on:") l = false := by
        decide
      have hm := (MatchString_anchor line).2 ⟨ws, rest, heq, hws⟩
      rw [hall line hl] at hm
      exact Bool.false_ne_true hm)
    (by decide) (by decide)

/-- C5, the claim as stated fails: on the example the patch succeeds and the patched text
has three lines more than the original, not one or two. -/
theorem patchWorkflow_example_three_more_lines :
    patchWorkflow exampleFinding (strings.Join exampleWorkflow [LF])
        = some (strings.Join examplePatched [LF], true)
      ∧ (strings.Split (strings.Join examplePatched [LF]) LF).length
        = (strings.Split (strings.Join exampleWorkflow [LF]) LF).length + 3
      ∧ ¬ ((strings.Split (strings.Join examplePatched [LF]) LF).length
            = (strings.Split (strings.Join exampleWorkflow [LF]) LF).length + 1
          ∨ (strings.Split (strings.Join examplePatched [LF]) LF).length
            = (strings.Split (strings.Join exampleWorkflow [LF]) LF).length + 2) := by
  refine ⟨by decide, by decide, by decide⟩

/-- C5, amended: when `patchWorkflow` succeeds, the text returned is the join of the line
sequence `patched` that `addEnvvarsToGlobalEnv` returns for the lines of the substitution
step, and `patched` has exactly 1 or exactly 3 lines more than the original document.
The returned text has as many lines as `patched` and one more for every line feed inside
the trimmed snippet: with `c` such line feeds it has exactly `1 + c` or exactly `3 + c`
lines more than the original document, which is 1 or 3 for a snippet on one line; when
the snippet has no line feed the lines of the returned text are `patched`. -/
theorem patchWorkflow_line_count (f : File) (content text : List Char)
    (h : patchWorkflow f content = some (text, true)) :
    ∃ (p : unsafePattern) (lines1 patched : List (List Char)),
      getUnsafePattern (strings.Trim f.Snippet " ".toList) = some p
      ∧ replaceUnsafeVarWithEnvvar (strings.Split content LF) p
          ((f.Offset + uintSize - 1) % uintSize) = some lines1
      ∧ addEnvvarsToGlobalEnv lines1 p (strings.Trim f.Snippet " ".toList)
          = some (patched, true)
      ∧ text = strings.Join patched [LF]
      ∧ (patched.length = (strings.Split content LF).length + 1
        ∨ patched.length = (strings.Split content LF).length + 3)
      ∧ (strings.Split text LF).length
          = patched.length + (strings.Trim f.Snippet " ".toList).count LF
      ∧ ((strings.Split text LF).length = (strings.Split content LF).length + 1
            + (strings.Trim f.Snippet " ".toList).count LF
        ∨ (strings.Split text LF).length = (strings.Split content LF).length + 3
            + (strings.Trim f.Snippet " ".toList).count LF)
      ∧ (LF ∉ f.Snippet → strings.Split text LF = patched) := by
  have htrim := Trim_part f.Snippet " ".toList
  unfold patchWorkflow at h
  generalize strings.Trim f.Snippet " ".toList = v at h htrim
  cases hrec : getUnsafePattern v with
  | none => simp [hrec] at h
  | some p =>
    simp only [hrec] at h
    cases hsub : replaceUnsafeVarWithEnvvar (strings.Split content LF) p
        ((f.Offset + uintSize - 1) % uintSize) with
    | none => simp [hsub] at h
    | some lines1 =>
      simp only [hsub] at h
      cases hadd : addEnvvarsToGlobalEnv lines1 p v with
      | none => simp [hadd] at h
      | some r =>
        obtain ⟨o, b⟩ := r
        cases b with
        | false => simp [hadd] at h
        | true =>
          simp only [hadd, Option.some.injEq, Prod.mk.injEq, and_true] at h
          have hmem := getUnsafePattern_mem hrec
          have hshape := unsafePatterns_shape p hmem
          have hrep := replaceUnsafeVarWithEnvvar_rep _ _ p hmem _ hsub
          have hlen := hrep.length_eq
          obtain ⟨e, k, g, hle, ho⟩ := addEnvvarsToGlobalEnv_success _ _ _ _ hadd
          have hname : LF ∉ p.envvarName := LF_not_mem_name hshape.2.1
          have hlines1 : ∀ l ∈ lines1, LF ∉ l := by
            intro l hl
            obtain ⟨l0, hl0, hr⟩ := forall₂_mem_right hrep l hl
            exact hr.not_mem LF (Split_not_mem content LF l0 hl0) hname
          have hone : o ≠ [] := by
            rcases ho with ho | ho <;> rw [ho] <;> simp
          have hsum : (o.map (fun l => l.count LF)).sum = v.count LF := by
            have h1 := sum_count_eq_zero (lines1.take e) LF
              (fun l hl => hlines1 l (List.mem_of_mem_take hl))
            have h2 := sum_count_eq_zero (lines1.drop e) LF
              (fun l hl => hlines1 l (List.mem_of_mem_drop hl))
            have h3 := count_envvarDefinition k p.envvarName v hname
            have h4 : (List.replicate g (Char.ofNat 32) ++ "env:".toList).count LF = 0 := by
              apply List.count_eq_zero_of_not_mem
              simp only [List.mem_append, not_or]
              exact ⟨LF_not_mem_replicate g, by decide⟩
            rcases ho with ho | ho
            · rw [ho]
              simp only [List.map_append, List.sum_append, List.map_cons, List.map_nil,
                List.sum_cons, List.sum_nil, h1, h2, h3]
              omega
            · rw [ho]
              simp only [List.map_append, List.sum_append, List.map_cons, List.map_nil,
                List.sum_cons, List.sum_nil, h1, h2, h3, h4, List.count_nil]
              omega
          have hgrow : o.length = (strings.Split content LF).length + 1
              ∨ o.length = (strings.Split content LF).length + 3 := by
            rcases ho with ho | ho
            · left
              rw [ho]
              simp only [List.length_append, List.length_take, List.length_drop,
                List.length_singleton]
              omega
            · right
              rw [ho]
              simp only [List.length_append, List.length_take, List.length_drop,
                List.length_cons, List.length_nil]
              omega
          have htext : (strings.Split text LF).length = o.length + v.count LF := by
            rw [← h, Split_length]
            have := count_Join o LF hone
            omega
          refine ⟨p, lines1, o, rfl, hsub, hadd, h.symm, hgrow, htext, ?_, ?_⟩
          · rcases hgrow with hg | hg
            · left
              omega
            · right
              omega
          · intro hsn
            have hv : LF ∉ v := fun hm => hsn (htrim.subset hm)
            have hdef : LF ∉ List.replicate k (Char.ofNat 32)
                ++ envvarDefinition p.envvarName v := by
              simp only [List.mem_append, not_or]
              exact ⟨LF_not_mem_replicate k, LF_not_mem_envvarDefinition hname hv⟩
            rw [← h]
            refine Split_Join o LF hone ?_
            · intro l hl
              rcases ho with ho | ho
              · rw [ho] at hl
                simp only [List.mem_append, List.mem_singleton] at hl
                rcases hl with (hl | hl) | hl
                · exact hlines1 l (List.mem_of_mem_take hl)
                · rw [hl]; exact hdef
                · exact hlines1 l (List.mem_of_mem_drop hl)
              · rw [ho] at hl
                simp only [List.mem_append, List.mem_cons, List.mem_singleton,
                  List.not_mem_nil, or_false] at hl
                rcases hl with (hl | hl | hl | hl) | hl
                · exact hlines1 l (List.mem_of_mem_take hl)
                · rw [hl]
                  simp only [List.mem_append, not_or]
                  exact ⟨LF_not_mem_replicate g, by decide⟩
                · rw [hl]; exact hdef
                · rw [hl]; simp
                · exact hlines1 l (List.mem_of_mem_drop hl)

/-- The line count of the example: the line sequence and the patched text have 3 lines
more than the original. -/
theorem patchWorkflow_line_count_witness :
    ∃ (p : unsafePattern) (lines1 patched : List (List Char)),
      getUnsafePattern (strings.Trim exampleFinding.Snippet " ".toList) = some p
      ∧ replaceUnsafeVarWithEnvvar (strings.Split (strings.Join exampleWorkflow [LF]) LF) p
          ((exampleFinding.Offset + uintSize - 1) % uintSize) = some lines1
      ∧ addEnvvarsToGlobalEnv lines1 p (strings.Trim exampleFinding.Snippet " ".toList)
          = some (patched, true)
      ∧ strings.Join examplePatched [LF] = strings.Join patched [LF]
      ∧ (patched.length = (strings.Split (strings.Join exampleWorkflow [LF]) LF).length + 1
        ∨ patched.length = (strings.Split (strings.Join exampleWorkflow [LF]) LF).length + 3)
      ∧ (strings.Split (strings.Join examplePatched [LF]) LF).length
          = patched.length + (strings.Trim exampleFinding.Snippet " ".toList).count LF
      ∧ ((strings.Split (strings.Join examplePatched [LF]) LF).length
            = (strings.Split (strings.Join exampleWorkflow [LF]) LF).length + 1
              + (strings.Trim exampleFinding.Snippet " ".toList).count LF
        ∨ (strings.Split (strings.Join examplePatched [LF]) LF).length
            = (strings.Split (strings.Join exampleWorkflow [LF]) LF).length + 3
              + (strings.Trim exampleFinding.Snippet " ".toList).count LF)
      ∧ (LF ∉ exampleFinding.Snippet
          → strings.Split (strings.Join examplePatched [LF]) LF = patched) :=
  patchWorkflow_line_count exampleFinding _ _ (by decide)

/-- C6: for a finding index inside the document the substitution step returns as many
lines as it got, and it changes no line before the finding's line and no line at or
behind a line, from the finding's line on, that is blank, a comment, or indented less
than the finding's line: only lines of the contiguous span can change, and nothing at or
after the first blank or comment line does, whatever follows it. -/
theorem replaceUnsafeVarWithEnvvar_frame (lines : List (List Char)) (pattern : unsafePattern)
    (runIndex : Nat) (h : runIndex < lines.length) :
    ∃ out, replaceUnsafeVarWithEnvvar lines pattern runIndex = some out
      ∧ out.length = lines.length
      ∧ ∀ j, (j < runIndex ∨ ∃ k l, runIndex ≤ k ∧ k ≤ j ∧ lines[k]? = some l
            ∧ (isBlankOrComment l = true ∨ getIndent l < getIndent lines[runIndex]))
          → out[j]? = lines[j]? := by
  unfold replaceUnsafeVarWithEnvvar
  rw [List.getElem?_eq_getElem h]
  refine ⟨_, rfl, ?_, ?_⟩
  · simp only [List.length_append, List.length_take, replaceLoop_length, List.length_drop]
    omega
  · intro j hj
    have hlen : (lines.take runIndex).length = runIndex := by
      simp only [List.length_take]
      omega
    rcases hj with hj | ⟨k, l, hrk, hkj, hk, hstop⟩
    · rw [List.getElem?_append_left (by omega), List.getElem?_take_of_lt hj]
    · rw [List.getElem?_append_right (by omega), hlen,
        replaceLoop_frame pattern _ (lines.drop runIndex) (j - runIndex) (k - runIndex) l
          (by omega) (by rw [List.getElem?_drop]; rw [← hk]; congr 1; omega)
          (isParentLevelIndent_eq_false l _ hstop),
        List.getElem?_drop]
      congr 1
      omega

/-- The substitution step on a step with a comment line: the line after the comment is
not changed. -/
theorem replaceUnsafeVarWithEnvvar_frame_witness :
    ∃ out, replaceUnsafeVarWithEnvvar workflowWithComment
        (newUnsafePattern "COMMENT_BODY" (lit "github.event.comment.body")) 0 = some out
      ∧ out.length = workflowWithComment.length
      ∧ ∀ j, (j < 0 ∨ ∃ k l, 0 ≤ k ∧ k ≤ j ∧ workflowWithComment[k]? = some l
            ∧ (isBlankOrComment l = true
              ∨ getIndent l < getIndent (workflowWithComment.get ⟨0, by decide⟩)))
          → out[j]? = workflowWithComment[j]? :=
  replaceUnsafeVarWithEnvvar_frame workflowWithComment _ 0 (by decide)

/-- C7 (the code fails it): in a workflow whose only `env:` key is nested at the job
level, no line is the key `env:` at the global indentation 0, yet `findExistingEnv`
reports that the global block exists; the same happens for `env:` in the middle of the
last but one line.  `patchWorkflow` then creates no global block: it puts the declaration
behind the last line of the job. -/
theorem findExistingEnv_takes_nested_env :
    "env:".toList ∉ workflowWithJobEnv
      ∧ findExistingEnv workflowWithJobEnv 0 = some (8, 6, true)
      ∧ findExistingEnv ["on:".toList, "jobs:".toList, "  x: echo env: y".toList, [] ] 0
        = some (3, 0, true)
      ∧ patchWorkflow { Path := [], Snippet := "github.head_ref".toList, Offset := 8 }
          (strings.Join workflowWithJobEnv [LF])
        = some (strings.Join (workflowWithJobEnv.take 7
            ++ ["      - run: echo \"$HEAD_REF\"".toList,
                "      HEAD_REF: $\x7b\x7b github.head_ref \x7d\x7d".toList]) [LF], true) := by
  decide

/-- C8: when the global indentation is `g`, no existing declaration block is discovered
and line `j` is the first line that holds the key `jobs:` behind `g` spaces,
`addEnvvarsToGlobalEnv` succeeds and returns the input lines with exactly three lines
inserted at index `j`: `g` spaces and `env:`, `g + 2` spaces and
`<envvarName>: ${{ <unsafeVar> }}`, and an empty line. -/
theorem addEnvvarsToGlobalEnv_new_block (lines : List (List Char)) (pattern : unsafePattern)
    (unsafeVar : List Char) (g j : Nat) (jobsLine : List Char)
    (hon : findGlobalIndentation lines = ((g : Int), true))
    (henv : findExistingEnv lines (g : Int) = some (-1, -1, false))
    (hj : lines[j]? = some jobsLine)
    (hfound : List.replicate g (Char.ofNat 32) ++ "jobs:".toList <:+: jobsLine)
    (hfirst : ∀ i, i < j → ∀ l, lines[i]? = some l →
      ¬ (List.replicate g (Char.ofNat 32) ++ "jobs:".toList <:+: l)) :
    addEnvvarsToGlobalEnv lines pattern unsafeVar
      = some (lines.take j
          ++ [List.replicate g (Char.ofNat 32) ++ "env:".toList,
              List.replicate (g + 2) (Char.ofNat 32) ++ (pattern.envvarName
                ++ ": $\x7b\x7b ".toList ++ unsafeVar ++ " \x7d\x7d".toList),
              []]
          ++ lines.drop j, true) := by
  have hjlt : j < lines.length := (List.getElem?_eq_some.1 hj).1
  have hidx : lines.findIdx (fun line =>
      (litChars (List.replicate g (Char.ofNat 32)) ++ lit "jobs:").MatchString line) = j := by
    refine findIdx_eq_of_first hj ?_ ?_
    · rw [lit_eq_litChars, ← litChars_append, MatchString_litChars]
      exact hfound
    · intro i hi l hl
      rw [lit_eq_litChars, ← litChars_append, Bool.eq_false_iff]
      intro hm
      exact hfirst i hi l hl ((MatchString_litChars _ _).1 hm)
  have hpos : findNewEnvPos lines (g : Int) = some ((j : Int), true) := by
    rw [findNewEnvPos_eq, hidx, if_pos hjlt]
  have hg2 : (g : Int) + assumedIndent = ((g + 2 : Nat) : Int) := by
    unfold assumedIndent
    omega
  have hj1 : (j : Int) + 1 = ((j + 1 : Nat) : Int) := by omega
  unfold addEnvvarsToGlobalEnv addNewGlobalEnv
  simp only [hon, henv, hpos, Repeat_space, insert_eq lines j _ (le_of_lt hjlt), hg2, hj1]
  rw [insert_eq _ (j + 1) _ (by simp; omega)]
  simp only [envvarDefinition, Option.some.injEq, Prod.mk.injEq, and_true]
  have htake : (lines.take j).length = j := by simp; omega
  rw [List.append_assoc (lines.take j), List.take_append_eq_append_take,
    List.drop_append_eq_append_drop, htake]
  simp [List.take_take]

/-- The declaration step on the example: `jobs:` is first found at index 2. -/
theorem addEnvvarsToGlobalEnv_new_block_witness :
    addEnvvarsToGlobalEnv exampleWorkflow
        (newUnsafePattern "COMMENT_BODY" (lit "github.event.comment.body"))
        "github.event.comment.body".toList
      = some (exampleWorkflow.take 2
          ++ [List.replicate 0 (Char.ofNat 32) ++ "env:".toList,
              List.replicate (0 + 2) (Char.ofNat 32)
                ++ ((newUnsafePattern "COMMENT_BODY" (lit "github.event.comment.body")).envvarName
                ++ ": $\x7b\x7b ".toList ++ "github.event.comment.body".toList
                ++ " \x7d\x7d".toList),
              []]
          ++ exampleWorkflow.drop 2, true) :=
  addEnvvarsToGlobalEnv_new_block exampleWorkflow _ _ 0 2 "jobs:".toList
    (by decide) (by decide) (by decide) (by decide)
    (fun i hi l hl => by
      have hcases : i = 0 ∨ i = 1 := by omega
      rcases hcases with rfl | rfl
      · have : l = "on:".toList := by simpa [exampleWorkflow] using hl.symm
        subst this
        decide
      · have : l = "  issue_comment:".toList := by simpa [exampleWorkflow] using hl.symm
        subst this
        decide)

/-- C9: when the global indentation is `g` and `findExistingEnv` discovers a block whose
header is line `h` (the first line holding `env:` behind `g` spaces) and whose insertion
index is `e`, `addEnvvarsToGlobalEnv` succeeds and returns the input lines with exactly
one line inserted at index `e`: `<envvarName>: ${{ <unsafeVar> }}` behind as many spaces
as the indentation of line `h + 1`; nothing is asked of the names already declared. -/
theorem addEnvvarsToGlobalEnv_existing_block (lines : List (List Char))
    (pattern : unsafePattern) (unsafeVar : List Char) (g h e : Nat) (k : Int)
    (header next : List Char)
    (hon : findGlobalIndentation lines = ((g : Int), true))
    (hexists : findExistingEnv lines (g : Int) = some ((e : Int), k, true))
    (hh : lines[h]? = some header)
    (hfound : List.replicate g (Char.ofNat 32) ++ "env:".toList <:+: header)
    (hfirst : ∀ i, i < h → ∀ l, lines[i]? = some l →
      ¬ (List.replicate g (Char.ofNat 32) ++ "env:".toList <:+: l))
    (hnext : lines[h + 1]? = some next) :
    addEnvvarsToGlobalEnv lines pattern unsafeVar
        = some (lines.take e
            ++ [List.replicate (getIndent next).toNat (Char.ofNat 32) ++ (pattern.envvarName
                ++ ": $\x7b\x7b ".toList ++ unsafeVar ++ " \x7d\x7d".toList)]
            ++ lines.drop e, true)
      ∧ k = getIndent next ∧ h < e ∧ e ≤ lines.length := by
  have hidx : lines.findIdx (fun line =>
      (litChars (List.replicate g (Char.ofNat 32)) ++ lit "env:").MatchString line) = h := by
    refine findIdx_eq_of_first hh ?_ ?_
    · rw [lit_eq_litChars, ← litChars_append, MatchString_litChars]
      exact hfound
    · intro i hi l hl
      rw [lit_eq_litChars, ← litChars_append, Bool.eq_false_iff]
      intro hm
      exact hfirst i hi l hl ((MatchString_litChars _ _).1 hm)
  have hres := findExistingEnv_exists lines g h next hidx hnext
  rw [hexists] at hres
  simp only [Option.some.injEq, Prod.mk.injEq, and_true] at hres
  obtain ⟨he, hk⟩ := hres
  have he2 : e = h + 1 + (lines.drop (h + 1)).findIdx (fun line =>
          !(litChars (List.replicate g (Char.ofNat 32))
            ++ [Atom.plus Cls.space, Atom.one Cls.notHash]).MatchString line) := by
    exact_mod_cast he
  have hle : (lines.drop (h + 1)).findIdx (fun line =>
          !(litChars (List.replicate g (Char.ofNat 32))
            ++ [Atom.plus Cls.space, Atom.one Cls.notHash]).MatchString line)
      ≤ (lines.drop (h + 1)).length := List.findIdx_le_length _
  have hlt : h + 1 < lines.length := (List.getElem?_eq_some.1 hnext).1
  have helen : e ≤ lines.length := by
    rw [List.length_drop] at hle
    omega
  refine ⟨?_, hk, by omega, helen⟩
  have hcast : getIndent next = (((getIndent next).toNat : Nat) : Int) :=
    (Int.toNat_of_nonneg (getIndent_nonneg next)).symm
  unfold addEnvvarsToGlobalEnv
  simp only [hon, hexists, hk]
  rw [hcast]
  simp only [Repeat_space, insert_eq lines e _ helen, envvarDefinition, Int.toNat_ofNat]

/-- The declaration step on a workflow whose block, indented by four spaces, already
declares the name: the line is inserted at index 4 behind four spaces. -/
theorem addEnvvarsToGlobalEnv_existing_block_witness :
    addEnvvarsToGlobalEnv workflowWithEnv
          (newUnsafePattern "COMMENT_BODY" (lit "github.event.comment.body"))
          "github.event.comment.body".toList
        = some (workflowWithEnv.take 4
            ++ [List.replicate
                  (getIndent
                    "    COMMENT_BODY: $\x7b\x7b github.event.comment.body \x7d\x7d".toList).toNat
                  (Char.ofNat 32)
                ++ ((newUnsafePattern "COMMENT_BODY" (lit "github.event.comment.body")).envvarName
                ++ ": $\x7b\x7b ".toList ++ "github.event.comment.body".toList
                ++ " \x7d\x7d".toList)]
            ++ workflowWithEnv.drop 4, true)
      ∧ (4 : Int)
        = getIndent "    COMMENT_BODY: $\x7b\x7b github.event.comment.body \x7d\x7d".toList
      ∧ 2 < 4 ∧ 4 ≤ workflowWithEnv.length :=
  addEnvvarsToGlobalEnv_existing_block workflowWithEnv _ _ 0 2 4 4 "env:".toList
    "    COMMENT_BODY: $\x7b\x7b github.event.comment.body \x7d\x7d".toList
    (by decide) (by decide) (by decide) (by decide)
    (fun i hi l hl => by
      have hcases : i = 0 ∨ i = 1 := by omega
      rcases hcases with rfl | rfl
      · have : l = "on:".toList := by simpa [workflowWithEnv] using hl.symm
        subst this
        decide
      · have : l = "    issue_comment:".toList := by simpa [workflowWithEnv] using hl.symm
        subst this
        decide)
    (by decide)

/-- C10: when the document has the `on:` anchor at global indentation `g`, no existing
declaration block is discovered and the key `jobs:` at the global indentation is not
found, then for every recognised finding inside the document `patchWorkflow` fails with
an empty text (no partially edited document) and `GeneratePatch` returns the empty
string. -/
theorem patchWorkflow_no_jobs
    (getDiff : List Char → List Char → List Char → List Char) (f : File) (content : List Char)
    (p : unsafePattern) (g : Int)
    (hrec : getUnsafePattern (strings.Trim f.Snippet " ".toList) = some p)
    (h1 : 1 ≤ f.Offset) (h2 : f.Offset ≤ (strings.Split content LF).length)
    (hon : findGlobalIndentation (strings.Split content LF) = (g, true))
    (henv : findExistingEnv (strings.Split content LF) g = some (-1, -1, false))
    (hjobs : findNewEnvPos (strings.Split content LF) g = some (-1, false)) :
    patchWorkflow f content = some ([], false) ∧ GeneratePatch getDiff f content = some [] := by
  have hshape := unsafePatterns_shape p (getUnsafePattern_mem hrec)
  obtain ⟨n, rfl⟩ : ∃ n : Nat, g = (n : Int) := by
    rcases findGlobalIndentation_cases (strings.Split content LF) with h | ⟨n, h⟩
    · rw [h] at hon
      simp at hon
    · rw [h] at hon
      exact ⟨n, by simpa using hon.symm⟩
  have hp : patchWorkflow f content = some ([], false) := by
    refine patchWorkflow_fail f content p hrec h1 h2 (fun out hout => ?_)
    refine addEnvvarsToGlobalEnv_no_jobs out p _ n ?_ ?_ ?_
    · rw [findGlobalIndentation_rep hout hshape.1 hshape.2.1, hon]
    · exact findExistingEnv_rep hout hshape.1 hshape.2.1 n henv
    · exact findNewEnvPos_rep hout hshape.1 hshape.2.1 n hjobs
  exact ⟨hp, GeneratePatch_of_fail getDiff f content hp⟩

/-- A recognised finding at line 5 of a workflow without the `jobs:` key. -/
theorem patchWorkflow_no_jobs_witness :
    patchWorkflow { Path := [], Snippet := " github.event.comment.body ".toList, Offset := 5 }
        (strings.Join workflowWithoutJobs [LF]) = some ([], false)
      ∧ GeneratePatch (fun _ _ patched => patched)
        { Path := [], Snippet := " github.event.comment.body ".toList, Offset := 5 }
        (strings.Join workflowWithoutJobs [LF]) = some [] :=
  patchWorkflow_no_jobs _ _ _ (newUnsafePattern "COMMENT_BODY" (lit "github.event.comment.body")) 0
    (by decide) (by decide) (by decide) (by decide) (by decide) (by decide)

/-- C11: for every snippet `getUnsafePattern` reports found exactly when the identity
expression of some catalog entry matches it, and what it returns is the earliest such
entry of the catalog: no entry before it matches.  Both `commits[0]` and `head_commit`
author e-mails give `AUTHOR_EMAIL`, and a snippet with the issue title and the issue
body gives `ISSUE_BODY`. -/
theorem getUnsafePattern_first_match :
    (∀ unsafeVar : List Char,
      ((getUnsafePattern unsafeVar).isSome
          ↔ ∃ p ∈ unsafePatterns, p.idRegex.MatchString unsafeVar = true)
        ∧ ∀ p, getUnsafePattern unsafeVar = some p →
          ∃ i : Nat, unsafePatterns[i]? = some p ∧ p.idRegex.MatchString unsafeVar = true
            ∧ ∀ j : Nat, j < i → ∀ q : unsafePattern, unsafePatterns[j]? = some q →
              q.idRegex.MatchString unsafeVar = false)
      ∧ (getUnsafePattern "github.event.commits[0].author.email".toList).map
          unsafePattern.envvarName = some "AUTHOR_EMAIL".toList
      ∧ (getUnsafePattern "github.event.head_commit.author.email".toList).map
          unsafePattern.envvarName = some "AUTHOR_EMAIL".toList
      ∧ (getUnsafePattern
          "github.event.issue.title || github.event.issue.body".toList).map
          unsafePattern.envvarName = some "ISSUE_BODY".toList := by
  refine ⟨fun unsafeVar => ⟨?_, ?_⟩, by decide, by decide, by decide⟩
  · unfold getUnsafePattern
    rw [List.find?_isSome]
  · intro p hp
    unfold getUnsafePattern at hp
    obtain ⟨hm, as, bs, hl, has⟩ := List.find?_eq_some.1 hp
    refine ⟨as.length, ?_, hm, ?_⟩
    · rw [hl, List.getElem?_append_right (le_refl _)]
      simp
    · intro j hj q hq
      rw [hl, List.getElem?_append_left hj] at hq
      have hmem : q ∈ as := List.getElem?_mem hq
      simpa using has q hmem

/-- C12, the claim as stated fails: on the run line of the example the substitution step
leaves `echo "$COMMENT_BODY"`; the `$` of the wrapper stays, the line is not
`echo "COMMENT_BODY"`. -/
theorem replaceUnsafeVarWithEnvvar_keeps_dollar :
    replaceUnsafeVarWithEnvvar exampleWorkflow
        (newUnsafePattern "COMMENT_BODY" (lit "github.event.comment.body")) 5
      = some (exampleWorkflow.take 5 ++ ["      - run: echo \"$COMMENT_BODY\"".toList])
      ∧ Char.ofNat 36 ∈ "      - run: echo \"$COMMENT_BODY\"".toList
      ∧ "      - run: echo \"$COMMENT_BODY\"".toList
        ≠ "      - run: echo \"COMMENT_BODY\"".toList := by
  decide

/-- C12, amended: for every catalog entry, on a line of the span every wrapped occurrence
`${{ m }}` of the dangerous expression has its part `{{ m }}` replaced by the bare variable
name while the `$` in front of it stays, so that `$<envvarName>` stands there (for
`${{ github.event.comment.body }}`, `$COMMENT_BODY`). Here the line is cut into its
occurrences: `m`, the text between the braces, contains a match of the entry's identity
expression, its closing `}}` is the first `}}` behind the opening braces, it holds no line
feed, and the text between two occurrences (or before the first) holds no `{{`. That text
is kept; the text behind the last occurrence is replaced in the same way, and kept as it
is when it holds no `{{`. -/
theorem replaceUnsafeVarWithEnvvar_occurrences (lines : List (List Char))
    (pattern : unsafePattern) (runIndex j : Nat) (first : List Char)
    (occs : List (List Char × List Char)) (tail : List Char)
    (hp : pattern ∈ unsafePatterns)
    (hfirst : lines[runIndex]? = some first) (hj : runIndex ≤ j)
    (hl : lines[j]? = some (wrapOccurrences occs tail))
    (hspan : ∀ k, runIndex ≤ k → k ≤ j → ∀ l2, lines[k]? = some l2 →
      isParentLevelIndent l2 (getIndent first) = true)
    (hocc : ∀ o ∈ occs, ¬ ("\x7b\x7b".toList <:+: o.1) ∧ LF ∉ o.2
      ∧ ¬ ("\x7d\x7d".toList <:+: o.2 ++ "\x7d".toList)
      ∧ pattern.idRegex.MatchString o.2 = true) :
    ∃ out, replaceUnsafeVarWithEnvvar lines pattern runIndex = some out
      ∧ out[j]? = some (substOccurrences pattern.envvarName occs
          (pattern.replaceRegex.ReplaceAllString tail pattern.envvarName))
      ∧ (¬ ("\x7b\x7b".toList <:+: tail) →
          out[j]? = some (substOccurrences pattern.envvarName occs tail)) := by
  obtain ⟨out, hout, hjout⟩ := replaceUnsafeVarWithEnvvar_span lines pattern runIndex j first _
    hfirst hj hl hspan
  have hrep := ReplaceAllString_occurrences pattern hp occs tail hocc
  rw [hrep] at hjout
  refine ⟨out, hout, hjout, fun htail => ?_⟩
  rw [hjout, ReplaceAllString_no_opening pattern hp tail htail]

/-- A run line with two occurrences, `echo ${{ github.head_ref }} and
${{ github.head_ref }}`: `$HEAD_REF` stands in the place of both. -/
theorem replaceUnsafeVarWithEnvvar_occurrences_witness :
    ∃ out, replaceUnsafeVarWithEnvvar workflowWithTwoOccurrences
          (newUnsafePattern "HEAD_REF" (lit "github.head_ref")) 0 = some out
      ∧ out[0]? = some (substOccurrences
          (newUnsafePattern "HEAD_REF" (lit "github.head_ref")).envvarName
          [("      - run: echo ".toList, " github.head_ref ".toList),
            (" and ".toList, " github.head_ref ".toList)]
          ((newUnsafePattern "HEAD_REF" (lit "github.head_ref")).replaceRegex.ReplaceAllString
            [] (newUnsafePattern "HEAD_REF" (lit "github.head_ref")).envvarName))
      ∧ (¬ ("\x7b\x7b".toList <:+: ([] : List Char)) →
          out[0]? = some (substOccurrences
            (newUnsafePattern "HEAD_REF" (lit "github.head_ref")).envvarName
            [("      - run: echo ".toList, " github.head_ref ".toList),
              (" and ".toList, " github.head_ref ".toList)] [])) :=
  replaceUnsafeVarWithEnvvar_occurrences workflowWithTwoOccurrences _ 0 0
    "      - run: echo $\x7b\x7b github.head_ref \x7d\x7d and $\x7b\x7b github.head_ref \x7d\x7d".toList
    [("      - run: echo ".toList, " github.head_ref ".toList),
      (" and ".toList, " github.head_ref ".toList)] []
    (by decide) (by decide) (by decide) (by decide)
    (fun k h1 h2 l2 hl2 => by
      have hk : k = 0 := by omega
      subst hk
      have : l2 = "      - run: echo $\x7b\x7b github.head_ref \x7d\x7d and $\x7b\x7b github.head_ref \x7d\x7d".toList := by
        simpa [workflowWithTwoOccurrences] using hl2.symm
      subst this
      decide)
    (by decide)

/-- C13 (the code fails it): on a run line with `${{ github.sha }}` standing before
`${{ github.event.comment.body }}` the replaced text begins at the `{{` of the first
expression, so the expression without the fragment is deleted together with the
second one. -/
theorem replaceUnsafeVarWithEnvvar_swallows_expression :
    replaceUnsafeVarWithEnvvar
        ["      - run: echo $\x7b\x7b github.sha \x7d\x7d $\x7b\x7b github.event.comment.body \x7d\x7d".toList]
        (newUnsafePattern "COMMENT_BODY" (lit "github.event.comment.body")) 0
      = some ["      - run: echo $COMMENT_BODY".toList]
      ∧ getUnsafePattern "github.event.comment.body".toList
        = some (newUnsafePattern "COMMENT_BODY" (lit "github.event.comment.body")) := by
  decide

/-- C14 (the code fails it): with the header `env:` at line 1 and the global indentation
0, line 3 `name: CI build` is not indented deeper than the global indentation, yet the
insertion index returned is 4; and with a comment line at index 3 inside the block the
index returned is 5. -/
theorem findExistingEnv_walks_past_block :
    findExistingEnv ["on: push".toList, "env:".toList, "  FOO: bar".toList,
        "name: CI build".toList, "jobs:".toList, "  build:".toList] 0 = some (4, 2, true)
      ∧ getIndent "name: CI build".toList = 0
      ∧ findExistingEnv ["on: push".toList, "env:".toList, "  FOO: bar".toList,
        "  # a comment".toList, "  BAR: baz".toList, "jobs:".toList] 0 = some (5, 2, true)
      ∧ isBlankOrComment "  # a comment".toList = true := by
  decide

/-- C15: after the substitution step with a catalog entry, a line of the span (the lines
of a document hold no line feed) contains no match of the entry's replacement
expression any more, however many matches it held. -/
theorem replaceUnsafeVarWithEnvvar_no_match_left (lines : List (List Char))
    (pattern : unsafePattern) (runIndex j : Nat) (first l : List Char)
    (hp : pattern ∈ unsafePatterns) (hlines : ∀ l2 ∈ lines, LF ∉ l2)
    (hfirst : lines[runIndex]? = some first) (hj : runIndex ≤ j) (hl : lines[j]? = some l)
    (hspan : ∀ k, runIndex ≤ k → k ≤ j → ∀ l2, lines[k]? = some l2 →
      isParentLevelIndent l2 (getIndent first) = true) :
    ∃ out o, replaceUnsafeVarWithEnvvar lines pattern runIndex = some out
      ∧ out[j]? = some o ∧ pattern.replaceRegex.MatchString o = false := by
  obtain ⟨out, hout, hjout⟩ := replaceUnsafeVarWithEnvvar_span lines pattern runIndex j first l
    hfirst hj hl hspan
  exact ⟨out, _, hout, hjout,
    MatchString_ReplaceAllString pattern hp l (hlines l (List.getElem?_mem hl))⟩

/-- A run line with two occurrences: none is left. -/
theorem replaceUnsafeVarWithEnvvar_no_match_left_witness :
    ∃ out o, replaceUnsafeVarWithEnvvar workflowWithTwoOccurrences
          (newUnsafePattern "HEAD_REF" (lit "github.head_ref")) 0 = some out
      ∧ out[0]? = some o
      ∧ (newUnsafePattern "HEAD_REF" (lit "github.head_ref")).replaceRegex.MatchString o
        = false :=
  replaceUnsafeVarWithEnvvar_no_match_left workflowWithTwoOccurrences _ 0 0
    "      - run: echo $\x7b\x7b github.head_ref \x7d\x7d and $\x7b\x7b github.head_ref \x7d\x7d".toList
    "      - run: echo $\x7b\x7b github.head_ref \x7d\x7d and $\x7b\x7b github.head_ref \x7d\x7d".toList
    (by decide) (by decide) (by decide) (by decide) (by decide)
    (fun k h1 h2 l2 hl2 => by
      have hk : k = 0 := by omega
      subst hk
      have : l2 = "      - run: echo $\x7b\x7b github.head_ref \x7d\x7d and $\x7b\x7b github.head_ref \x7d\x7d".toList := by
        simpa [workflowWithTwoOccurrences] using hl2.symm
      subst this
      decide)

/-- C16: `getIndent` is the number of leading characters that are a space or `-`; a line
is blank or a comment exactly when it is made of whitespace only or its first character
after leading whitespace is `#`; `isParentLevelIndent` is false for such a line and is
otherwise true exactly when `getIndent line ≥ r`. -/
theorem getIndent_isParentLevelIndent_spec (line : List Char) (r : Int) :
    getIndent line
        = ((line.takeWhile (fun c => c == Char.ofNat 32 || c == Char.ofNat 45)).length : Int)
      ∧ (isBlankOrComment line = true
          ↔ (∀ c ∈ line, Cls.space.test c = true)
            ∨ ∃ ws rest, line = ws ++ Char.ofNat 35 :: rest
                ∧ ∀ c ∈ ws, Cls.space.test c = true)
      ∧ (isBlankOrComment line = true → isParentLevelIndent line r = false)
      ∧ (isBlankOrComment line = false →
          (isParentLevelIndent line r = true ↔ getIndent line ≥ r)) := by
  refine ⟨getIndent_eq_takeWhile line, ?_, ?_, ?_⟩
  · unfold isBlankOrComment
    simp only [Bool.or_eq_true]
    rw [MatchString_blank, MatchString_comment]
  · intro h
    unfold isParentLevelIndent
    rw [if_pos h]
  · intro h
    unfold isParentLevelIndent
    rw [h]
    simp

/-- C17: for a snippet without a line feed that `getUnsafePattern` classifies, the
replacement expression of the selected entry matches `{{ <trimmed snippet> }}`; hence
when the finding's line is not blank, not a comment and contains
`${{ <trimmed snippet> }}`, the substitution step changes that line and the new line
contains the variable name. -/
theorem replaceRegex_matches_wrapped_snippet (snippet : List Char) (p : unsafePattern)
    (hLF : LF ∉ snippet)
    (hrec : getUnsafePattern (strings.Trim snippet " ".toList) = some p) :
    p.replaceRegex.MatchString
        ("\x7b\x7b ".toList ++ strings.Trim snippet " ".toList ++ " \x7d\x7d".toList) = true
      ∧ ∀ (lines : List (List Char)) (runIndex : Nat) (pre post : List Char),
        lines[runIndex]? = some (pre ++ "$\x7b\x7b ".toList ++ strings.Trim snippet " ".toList
          ++ " \x7d\x7d".toList ++ post) →
        isBlankOrComment (pre ++ "$\x7b\x7b ".toList ++ strings.Trim snippet " ".toList
          ++ " \x7d\x7d".toList ++ post) = false →
        ∃ out o, replaceUnsafeVarWithEnvvar lines p runIndex = some out
          ∧ out[runIndex]? = some o
          ∧ o ≠ pre ++ "$\x7b\x7b ".toList ++ strings.Trim snippet " ".toList
              ++ " \x7d\x7d".toList ++ post
          ∧ p.envvarName <:+: o := by
  have hv : LF ∉ strings.Trim snippet " ".toList :=
    fun hm => hLF ((Trim_part snippet " ".toList).subset hm)
  generalize strings.Trim snippet " ".toList = v at hrec hv ⊢
  have hp := getUnsafePattern_mem hrec
  have hm : p.idRegex.MatchString v = true := by
    unfold getUnsafePattern at hrec
    exact (List.find?_eq_some.1 hrec).1
  have hshape := unsafePatterns_shape p hp
  obtain ⟨re0, hR⟩ := replaceRegex_eq_cons hp
  constructor
  · unfold Regexp.MatchString
    refine (search_isSome _ _ _).2 ⟨[], _, rfl, ?_⟩
    have := matchHere_wrapped p hp v [] hv hm
      ("\x7b\x7b ".toList ++ v ++ " \x7d\x7d".toList).length
    simpa using this
  · intro lines runIndex pre post hline hnb
    have hparent : isParentLevelIndent (pre ++ "$\x7b\x7b ".toList ++ v
        ++ " \x7d\x7d".toList ++ post) (getIndent (pre ++ "$\x7b\x7b ".toList ++ v
        ++ " \x7d\x7d".toList ++ post)) = true := by
      unfold isParentLevelIndent
      rw [hnb]
      simp
    obtain ⟨out, hout, hjout⟩ := replaceUnsafeVarWithEnvvar_span lines p runIndex runIndex _ _
      hline (le_refl _) hline (fun k h1 h2 l2 hl2 => by
        have hk : k = runIndex := by omega
        subst hk
        rw [hline] at hl2
        rw [← Option.some.inj hl2]
        exact hparent)
    refine ⟨out, _, hout, hjout, ?_⟩
    have hsearch : (search p.replaceRegex (pre ++ "$\x7b\x7b ".toList ++ v
        ++ " \x7d\x7d".toList ++ post).length (pre ++ "$\x7b\x7b ".toList ++ v
        ++ " \x7d\x7d".toList ++ post)).isSome := by
      refine (search_isSome _ _ _).2 ⟨pre ++ [Char.ofNat 36],
        "\x7b\x7b ".toList ++ v ++ " \x7d\x7d".toList ++ post, by simp, ?_⟩
      exact matchHere_wrapped p hp v post hv hm _
    unfold Regexp.ReplaceAllString
    rw [hR] at hsearch ⊢
    obtain ⟨h1, h2⟩ := replaceAll_of_match LBRACE re0 p.envvarName
      (LBRACE_not_mem_name hshape.2.1) _ _ false hsearch
    exact ⟨fun e => by rw [e] at h2; exact lt_irrefl _ h2, h1⟩

/-- The finding of the example on its run line. -/
theorem replaceRegex_matches_wrapped_snippet_witness :
    (newUnsafePattern "COMMENT_BODY" (lit "github.event.comment.body")).replaceRegex.MatchString
        ("\x7b\x7b ".toList ++ strings.Trim " github.event.comment.body ".toList " ".toList
          ++ " \x7d\x7d".toList) = true
      ∧ ∀ (lines : List (List Char)) (runIndex : Nat) (pre post : List Char),
        lines[runIndex]? = some (pre ++ "$\x7b\x7b ".toList
          ++ strings.Trim " github.event.comment.body ".toList " ".toList
          ++ " \x7d\x7d".toList ++ post) →
        isBlankOrComment (pre ++ "$\x7b\x7b ".toList
          ++ strings.Trim " github.event.comment.body ".toList " ".toList
          ++ " \x7d\x7d".toList ++ post) = false →
        ∃ out o, replaceUnsafeVarWithEnvvar lines
            (newUnsafePattern "COMMENT_BODY" (lit "github.event.comment.body")) runIndex
            = some out
          ∧ out[runIndex]? = some o
          ∧ o ≠ pre ++ "$\x7b\x7b ".toList
              ++ strings.Trim " github.event.comment.body ".toList " ".toList
              ++ " \x7d\x7d".toList ++ post
          ∧ (newUnsafePattern "COMMENT_BODY" (lit "github.event.comment.body")).envvarName
            <:+: o :=
  replaceRegex_matches_wrapped_snippet " github.event.comment.body ".toList _
    (by decide) (by decide)

/-- C18: when the finding's line is a list item `- run: …` behind `k` spaces and the next
line is another list item `- run: …` behind `k` spaces, the next line belongs to the span
(the dash counts as indentation): the substitution step replaces it by its
`ReplaceAllString`, which rewrites the occurrences on it. -/
theorem replaceUnsafeVarWithEnvvar_next_list_item (lines : List (List Char))
    (pattern : unsafePattern) (i k : Nat) (r1 r2 : List Char)
    (h1 : lines[i]? = some (List.replicate k (Char.ofNat 32) ++ "- run:".toList ++ r1))
    (h2 : lines[i + 1]? = some (List.replicate k (Char.ofNat 32) ++ "- run:".toList ++ r2)) :
    ∃ out, replaceUnsafeVarWithEnvvar lines pattern i = some out
      ∧ out[i + 1]? = some (pattern.replaceRegex.ReplaceAllString
          (List.replicate k (Char.ofNat 32) ++ "- run:".toList ++ r2) pattern.envvarName)
      ∧ (pattern ∈ unsafePatterns → LF ∉ r2 →
          pattern.replaceRegex.MatchString (pattern.replaceRegex.ReplaceAllString
            (List.replicate k (Char.ofNat 32) ++ "- run:".toList ++ r2) pattern.envvarName)
          = false) := by
  suffices hs : ∃ out, replaceUnsafeVarWithEnvvar lines pattern i = some out
      ∧ out[i + 1]? = some (pattern.replaceRegex.ReplaceAllString
          (List.replicate k (Char.ofNat 32) ++ "- run:".toList ++ r2) pattern.envvarName) by
    obtain ⟨out, ho1, ho2⟩ := hs
    refine ⟨out, ho1, ho2, fun hp hr2 => MatchString_ReplaceAllString pattern hp _ ?_⟩
    simp only [List.mem_append, not_or]
    exact ⟨⟨LF_not_mem_replicate k, by decide⟩, hr2⟩
  refine replaceUnsafeVarWithEnvvar_span lines pattern i (i + 1) _ _ h1 (by omega) h2 ?_
  intro j hj1 hj2 l2 hl2
  have hj : j = i ∨ j = i + 1 := by omega
  have hl2' : l2 = List.replicate k (Char.ofNat 32) ++ "- run:".toList ++ r1
      ∨ l2 = List.replicate k (Char.ofNat 32) ++ "- run:".toList ++ r2 := by
    rcases hj with rfl | rfl
    · rw [h1] at hl2
      exact Or.inl (Option.some.inj hl2).symm
    · rw [h2] at hl2
      exact Or.inr (Option.some.inj hl2).symm
  unfold isParentLevelIndent
  rcases hl2' with rfl | rfl
  · rw [(listItem_indent k r1).1, (listItem_indent k r1).2]
    simp
  · rw [(listItem_indent k r2).1, (listItem_indent k r2).2, (listItem_indent k r1).2]
    simp

/-- The second step of a job is rewritten with the first. -/
theorem replaceUnsafeVarWithEnvvar_next_list_item_witness :
    ∃ out, replaceUnsafeVarWithEnvvar workflowWithTwoSteps
          (newUnsafePattern "COMMENT_BODY" (lit "github.event.comment.body")) 1 = some out
      ∧ out[1 + 1]? = some ((newUnsafePattern "COMMENT_BODY"
          (lit "github.event.comment.body")).replaceRegex.ReplaceAllString
          (List.replicate 6 (Char.ofNat 32) ++ "- run:".toList
            ++ " echo \"again $\x7b\x7b github.event.comment.body \x7d\x7d\"".toList)
          (newUnsafePattern "COMMENT_BODY" (lit "github.event.comment.body")).envvarName)
      ∧ (newUnsafePattern "COMMENT_BODY" (lit "github.event.comment.body") ∈ unsafePatterns →
          LF ∉ " echo \"again $\x7b\x7b github.event.comment.body \x7d\x7d\"".toList →
          (newUnsafePattern "COMMENT_BODY"
            (lit "github.event.comment.body")).replaceRegex.MatchString
            ((newUnsafePattern "COMMENT_BODY"
              (lit "github.event.comment.body")).replaceRegex.ReplaceAllString
              (List.replicate 6 (Char.ofNat 32) ++ "- run:".toList
                ++ " echo \"again $\x7b\x7b github.event.comment.body \x7d\x7d\"".toList)
              (newUnsafePattern "COMMENT_BODY" (lit "github.event.comment.body")).envvarName)
          = false) :=
  replaceUnsafeVarWithEnvvar_next_list_item workflowWithTwoSteps _ 1 6
    " echo \"$\x7b\x7b github.event.comment.body \x7d\x7d\"".toList
    " echo \"again $\x7b\x7b github.event.comment.body \x7d\x7d\"".toList
    (by decide) (by decide)

end Patch
